import Mathlib

/-!
Verification development for the `hvents` event orchestrator.

The Rust sources under `src/` are shallowly embedded: each Lean definition
mirrors one Rust item (cited by file and function in its doc comment).
Machine-level details that no modelled branch inspects are simplified in a
value-preserving way: Rust `&str`/`String` become Lean `String` (or `List Char`
where character-level operations matter), byte buffers become `List UInt8`,
`chrono` instants become integer milliseconds under a fixed-offset local
time zone, and external collaborators (the human-date parser, the template
renderer, the system clocks) become explicit environment parameters.
Fallible or panicking code returns `Option`.
-/

/-! ## JSON value model (`serde_json::Value`)

`serde_json::Value` is modelled as an inductive tree; objects are ordered
association lists, matching the ordered map used by the crate.  Numbers are
modelled as `Int`: none of the embedded code inspects numeric values. -/

inductive JValue where
  | null
  | boolVal (b : Bool)
  | num (n : Int)
  | str (s : String)
  | arr (xs : List JValue)
  | obj (fields : List (String × JValue))
deriving Repr, Inhabited

/-- `Value::is_null`. -/
def JValue.isNull : JValue → Bool
  | .null => true
  | _ => false

/-- `Map::remove(k)`: drop the entry stored under key `k`. -/
def removeKey (fields : List (String × JValue)) (k : String) : List (String × JValue) :=
  fields.filter (fun p => p.1 ≠ k)

/-- `Map::entry(k).or_insert(Value::Null)`: keep the map if `k` is present,
otherwise append `k ↦ null`. -/
def entryOrNull (fields : List (String × JValue)) (k : String) : List (String × JValue) :=
  if fields.any (fun p => p.1 = k) then fields else fields ++ [(k, JValue.null)]

mutual

/-- `merge_json_value_recursive` (src/events/data.rs, lines 130-145): objects
merge field-wise, anything else is replaced by the right-hand side. -/
def mergeJsonValueRecursive : JValue → JValue → JValue
  | .obj af, .obj bf => .obj (mergeObjFields af bf)
  | _, b => b

/-- The `for (k, v) in b` loop of `merge_json_value_recursive`: a null value
deletes the key, otherwise the value stored under the key (inserted as null
when absent) is merged with `v`. -/
def mergeObjFields : List (String × JValue) → List (String × JValue) → List (String × JValue)
  | af, [] => af
  | af, (k, v) :: rest =>
    if v.isNull then mergeObjFields (removeKey af k) rest
    else mergeObjFields (mergeIntoKey (entryOrNull af k) k v) rest

/-- In-place update of the entry at key `k` by merging `v` into its value
(the effect of `merge_json_value_recursive(a.entry(k).or_insert(Null), v)`). -/
def mergeIntoKey : List (String × JValue) → String → JValue → List (String × JValue)
  | [], _, _ => []
  | (k', w) :: rest, k, v =>
    (if k' = k then (k', mergeJsonValueRecursive w v) else (k', w)) :: mergeIntoKey rest k v

end

/-! ## Payload model (`Data`, src/events/data.rs) -/

/-- `Data` (src/events/data.rs, lines 7-16): polymorphic payload. -/
inductive Data where
  | string (s : String)
  | json (v : JValue)
  | bytes (b : List UInt8)
  | empty
deriving Repr, Inhabited

/-- The byte sequence of a Rust `String` (`str::as_bytes`). -/
def strBytes (s : String) : List UInt8 :=
  s.toUTF8.toList

/-- `Data::merge` (src/events/data.rs, lines 74-83).  Match arms are in the
source order; the final catch-all replaces the receiver. -/
def Data.merge : Data → Data → Data
  | .json a, .json b => .json (mergeJsonValueRecursive a b)
  | .string a, .string b => .string (a ++ b)
  | .bytes a, .string b => .bytes (a ++ strBytes b)
  | .bytes a, .bytes b => .bytes (a ++ b)
  | s, .empty => s
  | _, d => d

/-- `MergePolicy` (src/events/mod.rs, lines 120-127). -/
inductive MergePolicy where
  | yes
  | no
  | overwrite
deriving Repr, Inhabited

/-- Modelled from the spec: `Data::merge_with_policy` is called from
src/events/mod.rs line 131 and src/executors/queue.rs, but its definition is
not among the files under src/.  Spec §3: policy `yes` merges per the payload
merge contract, `no` discards the incoming payload, `overwrite` replaces
wholesale. -/
def Data.mergeWithPolicy (a : Data) (b : Data) : MergePolicy → Data
  | .yes => a.merge b
  | .no => a
  | .overwrite => b

/-! ## Reference merge table (C2)

The following definitions transcribe the merge table stated by the
specification (§3 payload merge contract), to be compared with `Data.merge`
above.  Keys of a JSON object are unique, so "delete the key" / "recurse on
the key's value" act on the unique entry with that key. -/

mutual

/-- Spec-side deep merge: structured ⊕ structured merges objects key by key;
a non-object on either side is replaced wholesale by `b`. -/
def mergeSpecValue : JValue → JValue → JValue
  | .obj af, .obj bf => .obj (mergeSpecFields af bf)
  | _, b => b

/-- Spec-side object merge: for each key in `b`, a null value deletes the key
in `a`, otherwise the value recurses into the existing entry (a missing key
is simply inserted). -/
def mergeSpecFields : List (String × JValue) → List (String × JValue) → List (String × JValue)
  | af, [] => af
  | af, (k, v) :: rest =>
    if v.isNull then mergeSpecFields (removeKey af k) rest
    else if af.any (fun p => p.1 = k) then mergeSpecFields (updateKeyWith af k v) rest
    else mergeSpecFields (af ++ [(k, v)]) rest

/-- Spec-side recursion into the entry stored at key `k`. -/
def updateKeyWith : List (String × JValue) → String → JValue → List (String × JValue)
  | [], _, _ => []
  | (k', w) :: rest, k, v =>
    (if k' = k then (k', mergeSpecValue w v) else (k', w)) :: updateKeyWith rest k v

end

/-- Spec-side payload merge table, exactly as the claim lists it: `b` is
discarded when `b` is empty; `b` replaces `a` when `a` is empty; structured
into structured deep-merges; string onto string concatenates; string or bytes
onto bytes appends bytes; any other pair is replaced by `b`. -/
def Data.mergeSpec : Data → Data → Data
  | a, .empty => a
  | .empty, b => b
  | .json a, .json b => .json (mergeSpecValue a b)
  | .string a, .string b => .string (a ++ b)
  | .bytes a, .string b => .bytes (a ++ strBytes b)
  | .bytes a, .bytes b => .bytes (a ++ b)
  | _, d => d

/-! ### C2: `Data::merge` equals the reference merge table -/

theorem mergeSpecValue_null (v : JValue) : mergeSpecValue .null v = v := by
  cases v <;> simp [mergeSpecValue]

theorem updateKeyWith_append_of_not_mem (af : List (String × JValue)) (k : String)
    (x v : JValue) (h : af.any (fun p => p.1 = k) = false) :
    updateKeyWith (af ++ [(k, x)]) k v = af ++ [(k, mergeSpecValue x v)] := by
  induction af with
  | nil => simp [updateKeyWith]
  | cons p rest ih =>
    simp only [List.any_cons, Bool.or_eq_false_iff] at h
    obtain ⟨h1, h2⟩ := h
    obtain ⟨k', w⟩ := p
    simp only [decide_eq_false_iff_not] at h1
    simp [updateKeyWith, h1, ih h2]

theorem merge_eq_spec_all :
    (∀ a b, mergeJsonValueRecursive a b = mergeSpecValue a b) ∧
    (∀ af bf, mergeObjFields af bf = mergeSpecFields af bf) ∧
    (∀ fields k v, mergeIntoKey fields k v = updateKeyWith fields k v) := by
  refine mergeJsonValueRecursive.mutual_induct
    (fun a b => mergeJsonValueRecursive a b = mergeSpecValue a b)
    (fun af bf => mergeObjFields af bf = mergeSpecFields af bf)
    (fun fields k v => mergeIntoKey fields k v = updateKeyWith fields k v)
    ?_ ?_ ?_ ?_ ?_ ?_ ?_
  · intro af bf h
    simpa [mergeJsonValueRecursive, mergeSpecValue] using h
  · intro x b h
    cases x <;> cases b <;> simp_all [mergeJsonValueRecursive, mergeSpecValue]
  · intro af
    simp [mergeObjFields, mergeSpecFields]
  · intro af k v rest hnull ih
    simp [mergeObjFields, mergeSpecFields, hnull, ih]
  · intro af k v rest hnull ih3 ih2
    by_cases hk : af.any (fun p => p.1 = k)
    · rw [mergeObjFields, if_neg hnull, ih2, ih3]
      simp only [entryOrNull, hk, if_true]
      rw [mergeSpecFields]
      simp [hnull, hk]
    · have haf : af.any (fun p => p.1 = k) = false := Bool.eq_false_iff.mpr hk
      rw [mergeObjFields, if_neg hnull, ih2, ih3]
      rw [show entryOrNull af k = af ++ [(k, JValue.null)] from by simp [entryOrNull, haf]]
      rw [updateKeyWith_append_of_not_mem af k _ v haf, mergeSpecValue_null]
      rw [mergeSpecFields]
      simp [hnull, haf]
  · intro k v
    simp [mergeIntoKey, updateKeyWith]
  · intro k' w rest k v ih1 ih3
    simp [mergeIntoKey, updateKeyWith, ih1, ih3]

/-- C2: For all payloads `a` and `b`, `a.merge(b)` equals the reference merge
table of the specification: `b` is discarded when `b` is empty; `b` replaces
`a` when `a` is empty; structured merged into structured performs the deep
object merge (null deletes, other values recurse, non-object on either side
replaces wholesale); string onto string concatenates; string or bytes onto
bytes appends the bytes of `b`; any other mismatched pair makes `b` replace
`a`. -/
theorem c2_payload_merge_reference (a b : Data) : Data.merge a b = Data.mergeSpec a b := by
  cases a <;> cases b <;> simp [Data.merge, Data.mergeSpec, merge_eq_spec_all.1]

/-! ## Time model (src/events/time.rs)

`chrono` is embedded under a fixed-offset local time zone: a
`DateTime<Local>` is its local-naive timestamp in milliseconds (an `Int`),
`NaiveDateTime` is likewise an `Int`, and `NaiveTime` is the number of
milliseconds since local midnight.  Under this embedding
`DateTime` comparison, `naive_local()` projection and `NaiveTime`
subtraction all act on the integers directly. -/

/-- Milliseconds per day. -/
def msPerDay : Int := 86400000

/-- `EXECUTION_PERIOD` (src/events/time.rs, line 11), in milliseconds. -/
def executionPeriodMs : Int := 1000

/-- `COOL_DOWN_DURATION` (src/events/time.rs, line 10), in milliseconds. -/
def coolDownMs : Nat := 3000

/-- A `chrono::DateTime<Local>` under the fixed-offset embedding: its
local-naive timestamp in milliseconds. -/
structure DateTimeL where
  ms : Int
deriving Repr, DecidableEq, Inhabited

/-- `DateTime::naive_local()`. -/
def DateTimeL.naiveLocal (d : DateTimeL) : Int := d.ms

/-- `DateTime::naive_local().time()`: milliseconds since local midnight. -/
def DateTimeL.timeOfDay (d : DateTimeL) : Int := d.ms % msPerDay

/-- `TimeResult` (src/events/time.rs, lines 78-85).  Each variant keeps the
parsed instant (projected per the variant) and the source string it was
parsed from. -/
inductive TimeResult where
  | dateTime (d : Int) (src : String)
  | date (d : Int) (src : String)
  | time (t : Int) (src : String)
deriving Repr, DecidableEq, Inhabited

/-- `TimeResult::gte` (src/events/time.rs, lines 88-94). -/
def TimeResult.gte : TimeResult → DateTimeL → Bool
  | .dateTime d _, now => decide (d ≥ now.ms)
  | .date d _, now => decide (d ≥ now.naiveLocal)
  | .time t _, now => decide (t ≥ now.timeOfDay)

/-- `TimeResult::lte` (src/events/time.rs, lines 96-102). -/
def TimeResult.lte : TimeResult → DateTimeL → Bool
  | .dateTime d _, now => decide (d ≤ now.ms)
  | .date d _, now => decide (d ≤ now.naiveLocal)
  | .time t _, now => decide (t ≤ now.timeOfDay)

/-- `TimeResult::within_execution_period` (src/events/time.rs, lines
104-122): the absolute difference between `now` (projected per the variant)
and the stored instant is strictly below `EXECUTION_PERIOD`. -/
def TimeResult.withinExecutionPeriod : TimeResult → DateTimeL → Bool
  | .dateTime d _, now => decide ((now.ms - d).natAbs < 1000)
  | .date d _, now => decide ((now.naiveLocal - d).natAbs < 1000)
  | .time t _, now => decide ((now.timeOfDay - t).natAbs < 1000)

/-- `TimeResult::gt` (src/events/time.rs, lines 124-130). -/
def TimeResult.gt : TimeResult → DateTimeL → Bool
  | .dateTime d _, now => decide (d > now.ms)
  | .date d _, now => decide (d > now.naiveLocal)
  | .time t _, now => decide (t > now.timeOfDay)

/-- `TimeResult::lt` (src/events/time.rs, lines 132-138). -/
def TimeResult.lt : TimeResult → DateTimeL → Bool
  | .dateTime d _, now => decide (d < now.ms)
  | .date d _, now => decide (d < now.naiveLocal)
  | .time t _, now => decide (t < now.timeOfDay)

/-- The retained source string of a `TimeResult` (the second tuple
component in the Rust enum). -/
def TimeResult.srcStr : TimeResult → String
  | .dateTime _ s => s
  | .date _ s => s
  | .time _ s => s

/-- `TimeResult::reset` (src/events/time.rs, lines 140-148): re-parse the
retained source string.  The parser (`FromStr` over the human-date library
and the process clock) is an environment parameter; the Rust code panics
when re-parsing fails, modelled as `none`. -/
def TimeResult.reset (parse : String → Option TimeResult) (r : TimeResult) : Option TimeResult :=
  parse r.srcStr

/-- `ExecutionPeriod` (src/events/period.rs, lines 32-38 and
src/events/time.rs, lines 59-65).  `fromTime`/`toTime` are the `from`/`to`
fields (`from` is reserved in Lean). -/
structure ExecutionPeriod where
  fromTime : TimeResult
  toTime : TimeResult
deriving Repr, DecidableEq, Inhabited

/-- Lexicographic strict order on character sequences; for valid UTF-8 this
coincides with Rust's byte-wise `String` ordering (UTF-8 byte order equals
code-point order). -/
def charListLt : List Char → List Char → Bool
  | [], [] => false
  | [], _ :: _ => true
  | _ :: _, [] => false
  | x :: xs, y :: ys =>
    decide (x.toNat < y.toNat) || (decide (x.toNat = y.toNat) && charListLt xs ys)

/-- Rust's derived lexicographic `>` on the `(NaiveTime, String)` tuples
carried by `TimeResult::Time`: the time component is compared first and
ties are broken by comparing the source strings. -/
def timePairGt (f : Int × String) (t : Int × String) : Bool :=
  decide (f.1 > t.1) || (decide (f.1 = t.1) && charListLt t.2.toList f.2.toList)

/-- `ExecutionPeriod::matches` (src/events/period.rs, lines 40-49): when
both endpoints are time-of-day values and `from > to` (on the full
`(NaiveTime, String)` tuples), the period wraps across midnight. -/
def ExecutionPeriod.matches (p : ExecutionPeriod) (now : DateTimeL) : Bool :=
  match p.fromTime, p.toTime with
  | .time f fs, .time t ts =>
    if timePairGt (f, fs) (t, ts) then p.fromTime.lte now || p.toTime.gt now
    else p.fromTime.lte now && p.toTime.gt now
  | _, _ => p.fromTime.lte now && p.toTime.gt now

/-- `TimeEvent` (src/events/time.rs, lines 13-19).  The `eventId` field is
the `event_id` read by `ReferencingEvent::event_id` (src/events/mod.rs,
lines 142-148); the struct revision declaring it is not among the files
under src/, so the field is added to the struct from time.rs. -/
structure TimeEvent where
  executePeriod : Option ExecutionPeriod
  executeTime : Option TimeResult
  eventId : Option String
deriving Repr, DecidableEq, Inhabited

/-- `TimeEvent::matches` (src/events/time.rs, lines 22-27). -/
def TimeEvent.matches (te : TimeEvent) (now : DateTimeL) : Bool :=
  match te.executeTime with
  | some t => t.withinExecutionPeriod now
  | none => true

/-- `TimeEvent::expired` (src/events/time.rs, lines 36-42): a time-of-day
result never expires; other results expire once `now - EXECUTION_PERIOD`
passes them; an absent execute time counts as expired. -/
def TimeEvent.expired (te : TimeEvent) (now : DateTimeL) : Bool :=
  match te.executeTime with
  | some (.time _ _) => false
  | some t => t.lt ⟨now.ms - executionPeriodMs⟩
  | none => true

/-- `TimeEvent::reset` (src/events/time.rs, lines 44-56): re-parse the
period endpoints and the execute time from their source strings. -/
def TimeEvent.reset (parse : String → Option TimeResult) (te : TimeEvent) : Option TimeEvent := do
  let period ← match te.executePeriod with
    | some p => do
      let f ← p.fromTime.reset parse
      let t ← p.toTime.reset parse
      pure (some (ExecutionPeriod.mk f t))
    | none => pure none
  let time ← match te.executeTime with
    | some r => (r.reset parse).map some
    | none => pure none
  pure { te with executePeriod := period, executeTime := time }

/-! ### C5 and C6: period and execution-window predicates -/

/-- The instant a `TimeResult` stores, in its own representation. -/
def TimeResult.projInstant : TimeResult → Int
  | .dateTime d _ => d
  | .date d _ => d
  | .time t _ => t

/-- `now` projected to the representation of a given `TimeResult`
(full timestamp, naive date-time, or time-of-day). -/
def DateTimeL.projOf (now : DateTimeL) : TimeResult → Int
  | .dateTime _ _ => now.ms
  | .date _ _ => now.naiveLocal
  | .time _ _ => now.timeOfDay

/-- Whether a `TimeResult` is a time-of-day-only result. -/
def TimeResult.isTimeOnly : TimeResult → Bool
  | .time _ _ => true
  | _ => false

/-- Claim C5's wrap-around guard: both endpoints are time-of-day values and
`from > to`, comparing the time-of-day values themselves. -/
def periodWrapClaim (p : ExecutionPeriod) : Bool :=
  match p.fromTime, p.toTime with
  | .time f _, .time t _ => decide (f > t)
  | _, _ => false

/-- The wrap-around guard as the code computes it: the full
`(NaiveTime, String)` tuples are compared lexicographically. -/
def periodWrapCode (p : ExecutionPeriod) : Bool :=
  match p.fromTime, p.toTime with
  | .time f fs, .time t ts => timePairGt (f, fs) (t, ts)
  | _, _ => false

/-- The period predicate exactly as claim C5 words it: under the wrap-around
guard, `now ≥ from ∨ now < to`; otherwise `from ≤ now < to`; each side
compared in the endpoint's own representation. -/
def isWithinPeriodClaim (p : ExecutionPeriod) (now : DateTimeL) : Prop :=
  if periodWrapClaim p then
    now.projOf p.fromTime ≥ p.fromTime.projInstant ∨ now.projOf p.toTime < p.toTime.projInstant
  else
    p.fromTime.projInstant ≤ now.projOf p.fromTime ∧ now.projOf p.toTime < p.toTime.projInstant

/-- Claim C5 amended: same reading, except that the wrap-around guard
compares the `(time, source string)` pairs lexicographically, as the code
does, instead of the time-of-day values alone. -/
def isWithinPeriodAmended (p : ExecutionPeriod) (now : DateTimeL) : Prop :=
  if periodWrapCode p then
    now.projOf p.fromTime ≥ p.fromTime.projInstant ∨ now.projOf p.toTime < p.toTime.projInstant
  else
    p.fromTime.projInstant ≤ now.projOf p.fromTime ∧ now.projOf p.toTime < p.toTime.projInstant

/-- A period whose endpoints denote the same time of day (22:00) but retain
different source strings; the code's tuple comparison makes it wrap. -/
def periodTieC5 : ExecutionPeriod :=
  ⟨.time 79200000 "22:00:00", .time 79200000 "22:00"⟩

/-- C5 counterexample: the claim's reading calls for `from ≤ now < to`
(which is empty here since `from = to` as times of day), but
`ExecutionPeriod::matches` takes the wrap-around branch — the guard
`from > to` compares the whole `(NaiveTime, String)` tuples and
`"22:00:00" > "22:00"` — and accepts midnight. -/
theorem c5_period_within_counterexample :
    ExecutionPeriod.matches periodTieC5 ⟨0⟩ = true ∧
      ¬ isWithinPeriodClaim periodTieC5 ⟨0⟩ := by
  constructor
  · decide
  · intro h
    simp only [isWithinPeriodClaim, periodWrapClaim, periodTieC5] at h
    revert h
    decide

/-- C5 (amended): for every period and instant, `isWithinPeriod(now)` holds
exactly when: if both endpoints are time-of-day values and the pair
`(from, fromSource)` lexicographically exceeds `(to, toSource)`, then
`now ≥ from ∨ now < to` (wrap-around); otherwise `from ≤ now < to`; each
side compared in the endpoint's own representation. -/
theorem c5_period_within (p : ExecutionPeriod) (now : DateTimeL) :
    ExecutionPeriod.matches p now = true ↔ isWithinPeriodAmended p now := by
  obtain ⟨f, t⟩ := p
  cases f <;> cases t <;>
    simp [ExecutionPeriod.matches, isWithinPeriodAmended, periodWrapCode,
      TimeResult.lte, TimeResult.gt, TimeResult.projInstant, DateTimeL.projOf,
      ge_iff_le, gt_iff_lt, and_comm]

/-- C6: `withinExecutionPeriod(now)` holds exactly when the absolute
difference between the result's instant and `now`, both projected to the
result's representation, is strictly below one second; and a `TimeEvent`
holding the result is expired exactly when the result is not time-of-day-only
and its instant lies more than one second in the past (again projected). -/
theorem c6_within_and_expired (r : TimeResult) (now : DateTimeL) :
    (r.withinExecutionPeriod now = true ↔ (now.projOf r - r.projInstant).natAbs < 1000) ∧
      (∀ te : TimeEvent, te.executeTime = some r →
        (te.expired now = true ↔
          (r.isTimeOnly = false ∧ r.projInstant < now.projOf r - 1000))) := by
  constructor
  · cases r <;>
      simp [TimeResult.withinExecutionPeriod, TimeResult.projInstant, DateTimeL.projOf]
  · intro te hte
    cases r <;>
      simp [TimeEvent.expired, hte, TimeResult.lt, TimeResult.isTimeOnly,
        TimeResult.projInstant, DateTimeL.projOf, DateTimeL.naiveLocal, executionPeriodMs]

/-- Witness for C6 at a concrete input: a date-time result five seconds in
the past is expired and outside its execution window. -/
theorem c6_within_and_expired_witness :
    (TimeEvent.mk none (some (.dateTime 0 "now")) none).executeTime = some (.dateTime 0 "now") ∧
      ((TimeEvent.mk none (some (.dateTime 0 "now")) none).expired ⟨5000⟩ = true ↔
        ((TimeResult.dateTime 0 "now").isTimeOnly = false ∧
          (TimeResult.dateTime 0 "now").projInstant <
            DateTimeL.projOf ⟨5000⟩ (.dateTime 0 "now") - 1000)) :=
  ⟨rfl, (c6_within_and_expired (.dateTime 0 "now") ⟨5000⟩).2 _ rfl⟩

/-! ## MQTT subscription matching (src/events/mqtt_subscribe.rs)

Topic strings are handled character-wise here, so Rust `str` values are
embedded as `List Char`.  Message bodies are byte buffers only ever
inspected through `core::str::from_utf8`, so a body is embedded as its
decoding result: `some s` for a valid UTF-8 body reading `s`, `none`
otherwise. -/

/-- `str::split('/')`: split at every separator, keeping empty pieces. -/
def splitChar (sep : Char) : List Char → List (List Char)
  | [] => [[]]
  | c :: rest =>
    let r := splitChar sep rest
    if c = sep then [] :: r
    else
      match r with
      | h :: t => (c :: h) :: t
      | [] => [[c]]

/-- `str::ends_with('#')`. -/
def endsWithHash (s : List Char) : Bool :=
  match s.getLast? with
  | some c => c = '#'
  | none => false

/-- `str::trim_end_matches('#')`: drop every trailing `'#'`. -/
def trimEndHashes (s : List Char) : List Char :=
  (s.reverse.dropWhile (fun c => c = '#')).reverse

/-- `str::contains(sub)` for a sub-string, on character lists. -/
def listIsInfixOf (needle : List Char) : List Char → Bool
  | [] => needle.isEmpty
  | h :: t => needle.isPrefixOf (h :: t) || listIsInfixOf needle t

/-- `MqttBodyMatch` (src/events/mqtt_subscribe.rs, lines 32-37). -/
inductive MqttBodyMatch where
  | body (s : String)
  | bodyContains (s : String)
deriving Repr, DecidableEq, Inhabited

/-- `MqttBodyMatch::matches` (src/events/mqtt_subscribe.rs, lines 39-46):
exact equality with the UTF-8 decoding of the body, or sub-string
containment; an undecodable body never matches. -/
def MqttBodyMatch.matches (m : MqttBodyMatch) (decoded : Option String) : Bool :=
  match m with
  | .body b => decoded == some b
  | .bodyContains b => (decoded.map (fun r => listIsInfixOf b.toList r.toList)).getD false

/-- `MqttSubscribeEvent` (src/events/mqtt_subscribe.rs, lines 7-14). -/
structure MqttSubscribeEvent where
  topic : List Char
  body : Option MqttBodyMatch
  poolId : String
deriving Repr, DecidableEq, Inhabited

/-- `MqttSubscribeEvent::matches` (src/events/mqtt_subscribe.rs, lines
16-29): a trailing `#` turns the pattern into a prefix test; a pattern
containing `+` is compared level-wise over the `zip` of the split pattern
and topic; otherwise the topic must equal the pattern; finally the optional
body matcher must accept the body. -/
def MqttSubscribeEvent.matches (e : MqttSubscribeEvent) (topic : List Char)
    (decoded : Option String) : Bool :=
  let topicMatches :=
    if endsWithHash e.topic then
      (trimEndHashes e.topic).isPrefixOf topic
    else if e.topic.contains '+' then
      ((splitChar '/' e.topic).zip (splitChar '/' topic)).all
        (fun p => p.1 == ['+'] || p.1 == p.2)
    else topic == e.topic
  topicMatches && (match e.body with | some b => b.matches decoded | none => true)

/-! ### C7: the MQTT matching contract -/

/-- The body-matcher contract as the claim states it (shared by the claim
and its amendment): exact UTF-8 string equality or sub-string containment;
an absent matcher always accepts. -/
def mqttBodyClaim (b : Option MqttBodyMatch) (decoded : Option String) : Prop :=
  match b with
  | some (.body s) => decoded = some s
  | some (.bodyContains s) => ∃ r, decoded = some r ∧ s.toList <:+: r.toList
  | none => True

/-- The topic-pattern contract exactly as claim C7 states it: a trailing `#`
matches any suffix, `+` matches exactly one topic level (so the level counts
must agree), otherwise the topic must equal the pattern. -/
def mqttTopicClaim (pattern topic : List Char) : Prop :=
  if endsWithHash pattern then trimEndHashes pattern <+: topic
  else if pattern.contains '+' then
    (splitChar '/' pattern).length = (splitChar '/' topic).length ∧
      ∀ pr ∈ (splitChar '/' pattern).zip (splitChar '/' topic), pr.1 = ['+'] ∨ pr.1 = pr.2
  else topic = pattern

/-- The topic-pattern contract as the code implements it: for `+` patterns
the levels are compared only over the zipped common prefix; excess levels on
either side are ignored. -/
def mqttTopicAmended (pattern topic : List Char) : Prop :=
  if endsWithHash pattern then trimEndHashes pattern <+: topic
  else if pattern.contains '+' then
    ∀ pr ∈ (splitChar '/' pattern).zip (splitChar '/' topic), pr.1 = ['+'] ∨ pr.1 = pr.2
  else topic = pattern

/-- C7 counterexample: the single-level pattern `+` matches the two-level
topic `a/b` (with no body matcher), although the claim's reading — `+`
matches exactly one topic level — rejects it. -/
theorem c7_mqtt_matches_counterexample :
    MqttSubscribeEvent.matches ⟨['+'], none, ""⟩ ('a' :: '/' :: ['b']) none = true ∧
      ¬ (mqttTopicClaim ['+'] ('a' :: '/' :: ['b']) ∧
          mqttBodyClaim none none) := by
  constructor
  · decide
  · intro h
    have := h.1
    revert this
    simp only [mqttTopicClaim]
    decide

theorem listIsInfixOf_iff (n h : List Char) : listIsInfixOf n h = true ↔ n <:+: h := by
  induction h with
  | nil =>
    simp [listIsInfixOf, List.isEmpty_iff, List.infix_nil]
  | cons c t ih =>
    simp [listIsInfixOf, List.infix_cons_iff, ih, List.isPrefixOf_iff_prefix]

/-- C7 (amended): `matches(topic, body)` holds exactly when the topic
matches the pattern — a trailing `#` matches any suffix; a pattern
containing `+` is compared level-by-level over the common prefix of the
pattern's and the topic's levels, `+` matching any single level and excess
levels on either side being ignored; otherwise the topic must equal the
pattern — and the optional body matcher (exact UTF-8 equality or sub-string
containment) accepts the body, an absent matcher always accepting. -/
theorem c7_mqtt_matches (e : MqttSubscribeEvent) (topic : List Char)
    (decoded : Option String) :
    e.matches topic decoded = true ↔
      (mqttTopicAmended e.topic topic ∧ mqttBodyClaim e.body decoded) := by
  unfold MqttSubscribeEvent.matches mqttTopicAmended mqttBodyClaim
  rw [Bool.and_eq_true]
  apply and_congr
  · by_cases h1 : endsWithHash e.topic
    · simp [h1, List.isPrefixOf_iff_prefix]
    · by_cases h2 : e.topic.contains '+' <;>
        simp [h1, h2, List.all_eq_true]
  · match e.body with
    | some (.body s) =>
      simp [MqttBodyMatch.matches]
    | some (.bodyContains s) =>
      match decoded with
      | some r => simp [MqttBodyMatch.matches, listIsInfixOf_iff]
      | none => simp [MqttBodyMatch.matches]
    | none => simp

/-! ## Event model (src/events/mod.rs)

Event-kind payloads carry the fields the embedded executors inspect; fields
only ever passed through to un-modelled I/O (headers, content types, ...)
are omitted.  Metadata (`Metadata(Value)`) is embedded as its underlying
`JValue`. -/

/-- `MqttPublishEvent` (src/events/mqtt_publish.rs). -/
structure MqttPublishEvent where
  topic : String
  body : Option String
  retain : Bool
  poolId : String
deriving Repr, Inhabited

/-- `MqttUnsubscribeEvent` (src/events/mqtt_unsubscribe.rs). -/
structure MqttUnsubscribeEvent where
  topic : String
  poolId : String
deriving Repr, Inhabited

/-- `ApiCallEvent` (src/events/api_call.rs); only the fields read by the
dispatcher are kept. -/
structure ApiCallEvent where
  url : String
  poolId : String
deriving Repr, Inhabited

/-- `ApiListenAction` (src/events/api_listen.rs, lines 41-47). -/
inductive ApiListenAction where
  | start
  | stop
deriving Repr, DecidableEq, Inhabited

/-- `ApiListenEvent` (src/events/api_listen.rs, lines 16-32); only the
fields read by the dispatcher are kept. -/
structure ApiListenEvent where
  path : String
  action : ApiListenAction
  poolId : String
deriving Repr, Inhabited

/-- `FileReadEvent` (src/events/file_read.rs); the dispatcher treats it as
an opaque request handed to the file system. -/
structure FileReadEvent where
  file : String
deriving Repr, Inhabited

/-- `FileWriteEvent` (src/events/file_write.rs); opaque to the dispatcher. -/
structure FileWriteEvent where
  file : String
deriving Repr, Inhabited

/-- `WatchAction` (src/events/file_watch.rs, lines 15-21). -/
inductive WatchAction where
  | start
  | stop
deriving Repr, DecidableEq, Inhabited

/-- `WatchEvent` (src/events/file_watch.rs, lines 5-13). -/
structure WatchEvent where
  path : String
  action : WatchAction
  recursive : Bool
deriving Repr, Inhabited

/-- `WatchKind` (src/events/file_changed.rs, lines 19-26). -/
inductive WatchKind where
  | written
  | created
  | removed
deriving Repr, DecidableEq, Inhabited

/-- `FileChangedEvent` (src/events/file_changed.rs, lines 6-11). -/
structure FileChangedEvent where
  path : String
  whenKind : WatchKind
deriving Repr, Inhabited

/-- `CommandEvent` (src/events/command.rs, lines 12-23); the `data_type`
only parameterises un-modelled I/O and is omitted. -/
structure CommandEvent where
  command : String
  args : List String
  replaceArgs : List (Nat × String)
  vars : List (String × String)
deriving Repr, Inhabited

/-- `Output` and `PrintEvent` (src/events/print.rs). -/
inductive PrintEvent where
  | stdout
  | stderr
deriving Repr, DecidableEq, Inhabited

/-- `PeriodEvent` (src/events/period.rs, lines 13-14). -/
structure PeriodEvent where
  period : ExecutionPeriod
deriving Repr, DecidableEq, Inhabited

/-- `PeriodEvent::is_within_period` (src/events/period.rs, lines 21-23). -/
def PeriodEvent.isWithinPeriod (p : PeriodEvent) (now : DateTimeL) : Bool :=
  p.period.matches now

/-- `EventType` (src/events/mod.rs, lines 37-67).  `Repeat` is rendered
`repeatEv` (`repeat` is reserved in Lean). -/
inductive EventType where
  | mqttPublish (e : MqttPublishEvent)
  | mqttSubscribe (e : MqttSubscribeEvent)
  | mqttUnsubscribe (e : MqttUnsubscribeEvent)
  | time (t : TimeEvent)
  | repeatEv (t : TimeEvent)
  | period (p : PeriodEvent)
  | apiCall (e : ApiCallEvent)
  | apiListen (e : ApiListenEvent)
  | fileRead (e : FileReadEvent)
  | fileWrite (e : FileWriteEvent)
  | watch (e : WatchEvent)
  | fileChanged (e : FileChangedEvent)
  | execute (e : CommandEvent)
  | print (e : PrintEvent)
  | scanCodeRead (code : Nat)
  | pass
deriving Repr, Inhabited

/-- `NextEvent` (src/events/mod.rs, lines 94-101). -/
inductive NextEvent where
  | name (s : String)
  | template (s : String)
deriving Repr, DecidableEq, Inhabited

/-- `StateData` (src/events/mod.rs, lines 87-92). -/
structure StateData where
  count : Option String
  replace : List (String × String)
deriving Repr, DecidableEq, Inhabited

/-- `ReferencingEvent` (src/events/mod.rs, lines 69-85). -/
structure ReferencingEvent where
  name : String
  eventType : EventType
  nextEvent : Option NextEvent
  metadata : JValue
  state : Option StateData
  data : Data
  mergeData : MergePolicy
deriving Repr, Inhabited

/-- `ReferencingEvent::default()`: the `Default` derive picks `Pass`, empty
name, null metadata, empty data and merge policy `yes`. -/
def defaultEvent : ReferencingEvent :=
  ⟨"", .pass, none, .null, none, .empty, .yes⟩

/-- `ReferencingEvent::merge` (src/events/mod.rs, lines 130-132). -/
def ReferencingEvent.merge (e : ReferencingEvent) (data : Data) : ReferencingEvent :=
  { e with data := e.data.mergeWithPolicy data e.mergeData }

/-- `ReferencingEvent::event_id` (src/events/mod.rs, lines 142-148): for
`Time`/`Repeat` events the explicit `event_id` with the event name as
fallback; the name otherwise. -/
def ReferencingEvent.eventId (e : ReferencingEvent) : String :=
  match e.eventType with
  | .time t => t.eventId.getD e.name
  | .repeatEv t => t.eventId.getD e.name
  | _ => e.name

/-- `ReferencingEvent::time_event` (src/events/mod.rs, lines 150-156). -/
def ReferencingEvent.timeEvent (e : ReferencingEvent) : Option TimeEvent :=
  match e.eventType with
  | .time t => some t
  | .repeatEv t => some t
  | _ => none

/-- `Events` (src/events/mod.rs, line 180): the catalog, an insertion-ordered
set of events keyed by name. -/
structure Events where
  list : List ReferencingEvent
deriving Repr, Inhabited

/-- `Events::get_event_by_name` (src/events/mod.rs, lines 187-189). -/
def Events.getEventByName (es : Events) (n : String) : Option ReferencingEvent :=
  es.list.find? (fun e => e.name = n)

/-- `Events::has_event_by_name` (src/events/mod.rs, lines 210-212). -/
def Events.hasEventByName (es : Events) (n : String) : Bool :=
  es.list.any (fun e => e.name = n)

/-- `Events::get_next_event` (src/events/mod.rs, lines 191-204): a template
`next` synthesizes a fresh `Pass` event carrying the template; a literal
`next` is looked up by name; no `next` resolves to nothing. -/
def Events.getNextEvent (es : Events) (e : ReferencingEvent) : Option ReferencingEvent :=
  match e.nextEvent with
  | some (.template s) =>
    some { defaultEvent with
            name := "generated_from_" ++ e.name,
            nextEvent := some (.template s) }
  | some (.name s) => es.getEventByName s
  | none => none

/-- `Events::get_event_id` (src/events/mod.rs, lines 206-208). -/
def Events.getEventId (es : Events) (n : String) : Option String :=
  (es.list.find? (fun e => e.name = n)).map (fun e => e.eventId)

/-! ## Startup validation (`validate_events`, src/main.rs, lines 159-219) -/

/-- The first event whose literal `next_event` name is missing from the
catalog, together with the missing name (the reference-validation loop,
src/main.rs, lines 168-178). -/
def firstBadRef (es : Events) : Option (String × String) :=
  es.list.findSome? (fun e =>
    match e.nextEvent with
    | some (.name n) => if es.hasEventByName n then none else some (n, e.name)
    | _ => none)

/-- The reference check: bail on the first event referencing a missing
literal next name. -/
def checkReferences (es : Events) : Except String Unit :=
  match firstBadRef es with
  | some (n, en) =>
    .error ("Event with name " ++ n ++ " not found, referenced in " ++ en ++ ".event")
  | none => .ok ()

/-- The startup check (src/main.rs, lines 181-185). -/
def checkStart (es : Events) (startEvents : List String) : Except String Unit :=
  match startEvents.find? (fun n => ¬ es.hasEventByName n) with
  | some n => .error ("Event with name " ++ n ++ " not found, referenced in start_with")
  | none => .ok ()

/-- The http check (src/main.rs, lines 188-195). -/
def checkHttp (es : Events) (httpListen : List (String × String)) : Except String Unit :=
  if httpListen.isEmpty then
    match es.list.find? (fun e =>
        match e.eventType with | .apiListen _ => true | _ => false) with
    | some e =>
      .error ("Please provide http configuration in order to use api_listen events. " ++
        "api_listen is provided in " ++ e.name)
    | none => .ok ()
  else .ok ()

/-- The watch pairing check (src/main.rs, lines 198-217). -/
def checkWatch (es : Events) : Except String Unit :=
  let watchEvent := es.list.find? (fun e =>
    match e.eventType with | .watch _ => true | _ => false)
  let fileChangeEvent := es.list.find? (fun e =>
    match e.eventType with | .fileChanged _ => true | _ => false)
  if watchEvent.isSome ≠ fileChangeEvent.isSome then
    match watchEvent with
    | some w =>
      .error ("Watch event " ++ w.name ++
        " is defined, but no file_changed events found")
    | none =>
      match fileChangeEvent with
      | some w =>
        .error ("File change event " ++ w.name ++
          " is defined, but no watch events found")
      | none => .ok ()
  else .ok ()

/-- `validate_events` (src/main.rs, lines 159-219): empty-catalog check, then
the reference, startup, http and watch checks in source order, bailing at the
first failure. -/
def validateEvents (es : Events) (startEvents : List String)
    (httpListen : List (String × String)) : Except String Unit :=
  if es.list.isEmpty then
    .error "No events specified, please define at least one event"
  else do
    checkReferences es
    checkStart es startEvents
    checkHttp es httpListen
    checkWatch es

/-! ### C8: symbolic `next` references are validated -/

/-- C8: if some event's literal next name is missing from the catalog then
startup validation returns an error; conversely, when every literal next
name is present, the next-reference check passes (validation can then only
fail in one of the other checks). -/
theorem c8_validate_next_references (es : Events) (startEvents : List String)
    (httpListen : List (String × String)) :
    ((∃ e ∈ es.list, ∃ n, e.nextEvent = some (.name n) ∧ es.hasEventByName n = false) →
      ∃ msg, validateEvents es startEvents httpListen = .error msg) ∧
    ((∀ e ∈ es.list, ∀ n, e.nextEvent = some (.name n) → es.hasEventByName n = true) →
      checkReferences es = .ok ()) := by
  constructor
  · rintro ⟨e, he, n, hn, hmiss⟩
    have hne : es.list.isEmpty = false := by
      cases h : es.list with
      | nil => simp [h] at he
      | cons a t => simp [h]
    have hbad : firstBadRef es ≠ none := by
      intro hnone
      rw [firstBadRef, List.findSome?_eq_none_iff] at hnone
      have := hnone e he
      rw [hn] at this
      simp [hmiss] at this
    obtain ⟨⟨m, en⟩, hsome⟩ := Option.ne_none_iff_exists'.mp hbad
    refine ⟨"Event with name " ++ m ++ " not found, referenced in " ++ en ++ ".event", ?_⟩
    simp [validateEvents, hne, checkReferences, hsome, Bind.bind, Except.bind]
  · intro hgood
    have : firstBadRef es = none := by
      rw [firstBadRef, List.findSome?_eq_none_iff]
      intro e he
      cases hne : e.nextEvent with
      | none => simp
      | some nx =>
        cases nx with
        | name n => simp [hgood e he n hne]
        | template s => simp
    simp [checkReferences, this]

/-- A one-event catalog whose `next_event` names a missing event. -/
def eventC8 : ReferencingEvent :=
  ⟨"a", .pass, some (.name "missing"), .null, none, .empty, .yes⟩

/-- Witness for C8: validation fails on a catalog with a dangling literal
`next` reference. -/
theorem c8_validate_next_references_witness :
    (∃ e ∈ (Events.mk [eventC8]).list, ∃ n, e.nextEvent = some (.name n) ∧
        (Events.mk [eventC8]).hasEventByName n = false) ∧
      ∃ msg, validateEvents (Events.mk [eventC8]) [] [] = .error msg :=
  have h : ∃ e ∈ (Events.mk [eventC8]).list, ∃ n, e.nextEvent = some (.name n) ∧
      (Events.mk [eventC8]).hasEventByName n = false :=
    ⟨eventC8, List.mem_singleton.mpr rfl, "missing", rfl, by decide⟩
  ⟨h, (c8_validate_next_references (Events.mk [eventC8]) [] []).1 h⟩

/-! ## Timer scheduler (`timed_executor`, src/executors/time.rs, lines 17-88)

`events_to_execute` (an `IndexMap`) and `delay_events` (a `HashMap` from
event id to the `Instant` of the last fire) are embedded as association
lists; the key-value store is likewise an association list.  The monotonic
clock (`Instant::now`) and the wall clock (`config::now()`) are tick
inputs: `instant` in milliseconds since some epoch, `now` a `DateTimeL`.
A panic (`unwrap_or_else`, `expect`) makes the step return `none`. -/

/-- `IndexMap::insert` / `HashMap::insert`: replace the entry in place when
the key is present, append otherwise. -/
def alistInsert {α : Type} (l : List (String × α)) (k : String) (v : α) :
    List (String × α) :=
  if l.any (fun p => p.1 = k) then l.map (fun p => if p.1 = k then (k, v) else p)
  else l ++ [(k, v)]

/-- Map lookup (first entry with the key). -/
def alistLookup {α : Type} (l : List (String × α)) (k : String) : Option α :=
  (l.find? (fun p => p.1 = k)).map (fun p => p.2)

/-- `IndexMap::shift_remove` / store `remove`: drop the entry with the key,
preserving the order of the rest. -/
def alistRemove {α : Type} (l : List (String × α)) (k : String) :
    List (String × α) :=
  l.filter (fun p => p.1 ≠ k)

/-- A well-formed map: no key occurs twice. -/
def uniqueKeys {α : Type} (l : List (String × α)) : Prop :=
  (l.map Prod.fst).Nodup

/-- The scheduler's mutable state: `events_to_execute`, `delay_events` and
the persistent store. -/
structure SchedState where
  pending : List (String × ReferencingEvent)
  cooldown : List (String × Nat)
  db : List (String × ReferencingEvent)
deriving Repr, Inhabited

/-- The clock readings of one loop iteration. -/
structure TickEnv where
  instant : Nat
  now : DateTimeL
deriving Repr, DecidableEq, Inhabited

/-- Line 26: `delay_events.retain(|_, d| d.elapsed() <= COOL_DOWN_DURATION)`. -/
def retainCooldown (cooldown : List (String × Nat)) (instant : Nat) :
    List (String × Nat) :=
  cooldown.filter (fun p => instant - p.2 ≤ coolDownMs)

/-- Lines 27-42: drain the receiver; each arrival is keyed by the catalog's
event id for its name (a missing name panics), persisted, then inserted
into the pending map. -/
def applyArrivals (events : Events) :
    List (String × ReferencingEvent) × List (String × ReferencingEvent) →
    List ReferencingEvent →
    Option (List (String × ReferencingEvent) × List (String × ReferencingEvent))
  | acc, [] => some acc
  | acc, te :: rest => do
    let eventId ← events.getEventId te.name
    applyArrivals events (alistInsert acc.1 eventId te, alistInsert acc.2 eventId te) rest

/-- Lines 44-54: the tick's ready set — pending entries whose event id is
not cooling down, whose time event matches `now`, and whose `next` resolves;
each paired with the resolved next event. -/
def readyList (events : Events) (pending : List (String × ReferencingEvent))
    (cooldown : List (String × Nat)) (now : DateTimeL) :
    List (String × ReferencingEvent) :=
  pending.filterMap (fun p =>
    if ¬ cooldown.any (fun c => c.1 = p.2.eventId) then
      match p.2.timeEvent with
      | some te =>
        if te.matches now then (events.getNextEvent p.2).map (fun ne => (p.1, ne))
        else none
      | none => none
    else none)

/-- Lines 57-73, one iteration: remove the fired entry from pending (it
must exist), merge its payload into the next event and queue it, re-queue
the event itself when it is a `Repeat`, delete it from the store and record
the cooldown. -/
def fireStep (acc : SchedState × List ReferencingEvent)
    (fire : String × ReferencingEvent) (instant : Nat) :
    Option (SchedState × List ReferencingEvent) := do
  let currentEvent ← alistLookup acc.1.pending fire.1
  let nextEvent := fire.2.merge currentEvent.data
  let out := acc.2 ++ [nextEvent] ++
    (match currentEvent.eventType with
     | .repeatEv _ => [currentEvent]
     | _ => [])
  pure ({ pending := alistRemove acc.1.pending fire.1,
          cooldown := alistInsert acc.1.cooldown fire.1 instant,
          db := alistRemove acc.1.db fire.1 }, out)

/-- Lines 57-73: fire every ready entry in order. -/
def fireAll (st : SchedState) (ready : List (String × ReferencingEvent))
    (instant : Nat) : Option (SchedState × List ReferencingEvent) :=
  List.foldlM (fun acc fire => fireStep acc fire instant) (st, ([] : List ReferencingEvent)) ready

/-- Lines 76-79: pending entries whose time event has expired (entries
without a time event are skipped). -/
def expiredIds (pending : List (String × ReferencingEvent)) (now : DateTimeL) :
    List String :=
  pending.filterMap (fun p =>
    p.2.timeEvent.bind (fun te => if te.expired now then some p.1 else none))

/-- Lines 74-86: on an idle tick, delete expired entries from the store and
retain only unexpired pending entries (entries without a time event are
kept). -/
def pruneExpired (st : SchedState) (now : DateTimeL) : SchedState :=
  let ids := expiredIds st.pending now
  { pending := st.pending.filter (fun p =>
      ¬ ((p.2.timeEvent.map (fun te => te.expired now)).getD false)),
    cooldown := st.cooldown,
    db := st.db.filter (fun p => ¬ ids.contains p.1) }

/-- One iteration of the `timed_executor` loop, returning the successor
state and the events queued on the main queue, in order. -/
def schedStep (events : Events) (st : SchedState) (arrivals : List ReferencingEvent)
    (env : TickEnv) : Option (SchedState × List ReferencingEvent) := do
  let cooldown := retainCooldown st.cooldown env.instant
  let (db, pending) ← applyArrivals events (st.db, st.pending) arrivals
  let ready := readyList events pending cooldown env.now
  let st1 : SchedState := ⟨pending, cooldown, db⟩
  if ready.isEmpty then
    pure (pruneExpired st1 env.now, [])
  else
    fireAll st1 ready env.instant

/-- Run the scheduler over a sequence of ticks. -/
def schedRun (events : Events) (st : SchedState) :
    List (List ReferencingEvent × TickEnv) → Option SchedState
  | [] => some st
  | (arrivals, env) :: rest => do
    let r ← schedStep events st arrivals env
    schedRun events r.1 rest

/-- The state just before the `i`-th tick of a run. -/
def schedRunN (events : Events) (st : SchedState)
    (ticks : List (List ReferencingEvent × TickEnv)) (n : Nat) : Option SchedState :=
  schedRun events st (ticks.take n)

/-- The ids fired by one tick from a given pre-state (the keys of the
tick's ready set). -/
def tickFiredIds (events : Events) (st : SchedState)
    (arrivals : List ReferencingEvent) (env : TickEnv) : List String :=
  match applyArrivals events (st.db, st.pending) arrivals with
  | some (_, pending) =>
    (readyList events pending (retainCooldown st.cooldown env.instant) env.now).map
      (fun p => p.1)
  | none => []

/-- The event id `eid` fires at tick `i` of a run. -/
def firedAt (events : Events) (st0 : SchedState)
    (ticks : List (List ReferencingEvent × TickEnv)) (i : Nat) (eid : String) : Prop :=
  ∃ st tick, schedRunN events st0 ticks i = some st ∧ ticks.get? i = some tick ∧
    eid ∈ tickFiredIds events st tick.1 tick.2

/-- Every pending entry is stored under its own event id. -/
def pendingConsistent (l : List (String × ReferencingEvent)) : Prop :=
  ∀ p ∈ l, p.2.eventId = p.1

/-- Every arrival of the run is a clone of a catalog event: the catalog's
event id for its name is its own event id. -/
def arrivalsConsistent (events : Events)
    (ticks : List (List ReferencingEvent × TickEnv)) : Prop :=
  ∀ t ∈ ticks, ∀ a ∈ t.1, events.getEventId a.name = some a.eventId

/-- The monotonic clock is monotone along the run. -/
def instantsMono (ticks : List (List ReferencingEvent × TickEnv)) : Prop :=
  ∀ i j, i ≤ j → ∀ ti tj, ticks.get? i = some ti → ticks.get? j = some tj →
    ti.2.instant ≤ tj.2.instant

/-! ### Cooldown bookkeeping lemmas -/

/-- The cooldown map records a fire of `eid` no older than instant `a`. -/
def CoolCover (cooldown : List (String × Nat)) (a : Nat) (eid : String) : Prop :=
  ∃ t, a ≤ t ∧ (eid, t) ∈ cooldown

theorem coolCover_insert {l : List (String × Nat)} {k : String} {v a : Nat} {eid : String}
    (h : CoolCover l a eid) (hv : a ≤ v) : CoolCover (alistInsert l k v) a eid := by
  obtain ⟨t, hat, hmem⟩ := h
  unfold alistInsert
  by_cases hany : l.any (fun p => p.1 = k) <;> simp only [hany, if_true, if_false]
  · by_cases hk : eid = k
    · exact ⟨v, hv, List.mem_map.mpr ⟨(eid, t), hmem, by simp [hk]⟩⟩
    · exact ⟨t, hat, List.mem_map.mpr ⟨(eid, t), hmem, by simp [hk]⟩⟩
  · exact ⟨t, hat, List.mem_append_left _ hmem⟩

theorem coolCover_insert_self {l : List (String × Nat)} {k : String} {v a : Nat}
    (hv : a ≤ v) : CoolCover (alistInsert l k v) a k := by
  unfold alistInsert
  by_cases hany : l.any (fun p => p.1 = k) <;> simp only [hany, if_true, if_false]
  · obtain ⟨p, hp, hpk⟩ := List.any_eq_true.mp hany
    simp only [decide_eq_true_eq] at hpk
    exact ⟨v, hv, List.mem_map.mpr ⟨p, hp, by simp [hpk]⟩⟩
  · exact ⟨v, hv, List.mem_append_right _ (by simp)⟩

theorem coolCover_retain {l : List (String × Nat)} {inst a : Nat} {eid : String}
    (h : CoolCover l a eid) :
    CoolCover (retainCooldown l inst) a eid ∨ coolDownMs < inst - a := by
  obtain ⟨t, hat, hmem⟩ := h
  by_cases hc : inst - t ≤ coolDownMs
  · exact Or.inl ⟨t, hat, List.mem_filter.mpr ⟨hmem, by simpa using hc⟩⟩
  · right
    have h1 : inst - t ≤ inst - a := Nat.sub_le_sub_left hat inst
    omega

theorem fireAll_cover (inst : Nat) (ready : List (String × ReferencingEvent)) :
    ∀ (acc : SchedState × List ReferencingEvent) (st' : SchedState)
      (out' : List ReferencingEvent),
      List.foldlM (fun acc fire => fireStep acc fire inst) acc ready = some (st', out') →
      ∀ eid a, a ≤ inst →
        (CoolCover acc.1.cooldown a eid ∨ ∃ p ∈ ready, p.1 = eid) →
        CoolCover st'.cooldown a eid := by
  induction ready with
  | nil =>
    intro acc st' out' hfold eid a _ hcov
    simp only [List.foldlM_nil, Option.pure_def, Option.some_inj] at hfold
    rcases hcov with hc | ⟨p, hp, _⟩
    · obtain ⟨st0, out0⟩ := acc
      cases hfold
      exact hc
    · exact absurd hp (List.not_mem_nil p)
  | cons f fs ih =>
    intro acc st' out' hfold eid a ha hcov
    simp only [List.foldlM_cons] at hfold
    cases hstep : fireStep acc f inst with
    | none =>
      rw [hstep] at hfold
      exact Option.noConfusion hfold
    | some acc1 =>
      rw [hstep] at hfold
      have hfold' : List.foldlM (fun acc fire => fireStep acc fire inst) acc1 fs =
          some (st', out') := hfold
      have hc1 : acc1.1.cooldown = alistInsert acc.1.cooldown f.1 inst := by
        unfold fireStep at hstep
        cases hlk : alistLookup acc.1.pending f.1 with
        | none =>
          rw [hlk] at hstep
          exact Option.noConfusion hstep
        | some c =>
          rw [hlk] at hstep
          have h2 := Option.some.inj hstep
          rw [← h2]
      refine ih acc1 st' out' hfold' eid a ha ?_
      rcases hcov with hc | ⟨p, hp, hpe⟩
      · exact Or.inl (hc1 ▸ coolCover_insert hc ha)
      · rcases List.mem_cons.mp hp with rfl | hp'
        · exact Or.inl (hc1 ▸ hpe ▸ coolCover_insert_self ha)
        · exact Or.inr ⟨p, hp', hpe⟩

theorem mem_alistInsert {α : Type} {l : List (String × α)} {k : String} {v : α}
    {p : String × α} (h : p ∈ alistInsert l k v) : p ∈ l ∨ p = (k, v) := by
  unfold alistInsert at h
  by_cases hany : l.any (fun q => q.1 = k) <;> simp only [hany, if_true, if_false] at h
  · obtain ⟨q, hq, hqe⟩ := List.mem_map.mp h
    by_cases hk : q.1 = k
    · rw [if_pos hk] at hqe
      exact Or.inr hqe.symm
    · rw [if_neg hk] at hqe
      exact Or.inl (hqe ▸ hq)
  · rcases List.mem_append.mp h with h1 | h2
    · exact Or.inl h1
    · exact Or.inr (List.mem_singleton.mp h2)

theorem applyArrivals_pending_mem (events : Events) :
    ∀ (arrivals : List ReferencingEvent)
      (acc res : List (String × ReferencingEvent) × List (String × ReferencingEvent)),
      applyArrivals events acc arrivals = some res →
      ∀ p ∈ res.2, p ∈ acc.2 ∨
        ∃ a ∈ arrivals, events.getEventId a.name = some p.1 ∧ p.2 = a := by
  intro arrivals
  induction arrivals with
  | nil =>
    intro acc res h p hp
    unfold applyArrivals at h
    cases h
    exact Or.inl hp
  | cons a rest ih =>
    intro acc res h p hp
    unfold applyArrivals at h
    cases hid : events.getEventId a.name with
    | none =>
      rw [hid] at h
      exact Option.noConfusion h
    | some eventId =>
      rw [hid] at h
      have h' : applyArrivals events
          (alistInsert acc.1 eventId a, alistInsert acc.2 eventId a) rest = some res := h
      rcases ih _ res h' p hp with hin | ⟨b, hb, hbid, hbe⟩
      · rcases mem_alistInsert hin with h1 | h1
        · exact Or.inl h1
        · refine Or.inr ⟨a, List.mem_cons_self a rest, ?_, ?_⟩
          · rw [h1, hid]
          · rw [h1]
      · exact Or.inr ⟨b, List.mem_cons_of_mem a hb, hbid, hbe⟩

theorem fireAll_pending_subset (inst : Nat) (ready : List (String × ReferencingEvent)) :
    ∀ (acc : SchedState × List ReferencingEvent) (st' : SchedState)
      (out' : List ReferencingEvent),
      List.foldlM (fun acc fire => fireStep acc fire inst) acc ready = some (st', out') →
      ∀ p ∈ st'.pending, p ∈ acc.1.pending := by
  induction ready with
  | nil =>
    intro acc st' out' hfold p hp
    simp only [List.foldlM_nil, Option.pure_def, Option.some_inj] at hfold
    obtain ⟨st0, out0⟩ := acc
    cases hfold
    exact hp
  | cons f fs ih =>
    intro acc st' out' hfold p hp
    simp only [List.foldlM_cons] at hfold
    cases hstep : fireStep acc f inst with
    | none =>
      rw [hstep] at hfold
      exact Option.noConfusion hfold
    | some acc1 =>
      rw [hstep] at hfold
      have hfold' : List.foldlM (fun acc fire => fireStep acc fire inst) acc1 fs =
          some (st', out') := hfold
      have hp1 := ih acc1 st' out' hfold' p hp
      unfold fireStep at hstep
      cases hlk : alistLookup acc.1.pending f.1 with
      | none =>
        rw [hlk] at hstep
        exact Option.noConfusion hstep
      | some c =>
        rw [hlk] at hstep
        have h2 := Option.some.inj hstep
        rw [← h2] at hp1
        exact List.mem_of_mem_filter hp1

theorem schedStep_pendingConsistent {events : Events} {st : SchedState}
    {arrivals : List ReferencingEvent} {env : TickEnv} {st' : SchedState}
    {out : List ReferencingEvent}
    (h : schedStep events st arrivals env = some (st', out))
    (hpc : pendingConsistent st.pending)
    (harr : ∀ a ∈ arrivals, events.getEventId a.name = some a.eventId) :
    pendingConsistent st'.pending := by
  unfold schedStep at h
  cases happ : applyArrivals events (st.db, st.pending) arrivals with
  | none =>
    rw [happ] at h
    exact Option.noConfusion h
  | some res =>
    obtain ⟨db, pending⟩ := res
    rw [happ] at h
    have hpc2 : pendingConsistent pending := by
      intro p hp
      rcases applyArrivals_pending_mem events arrivals _ _ happ p hp with h1 | ⟨a, ha, haid, hae⟩
      · exact hpc p h1
      · rw [harr a ha] at haid
        rw [hae]
        exact Option.some.inj haid
    have hred : (if (readyList events pending (retainCooldown st.cooldown env.instant)
          env.now).isEmpty then
        some (pruneExpired ⟨pending, retainCooldown st.cooldown env.instant, db⟩ env.now,
          ([] : List ReferencingEvent))
      else
        fireAll ⟨pending, retainCooldown st.cooldown env.instant, db⟩
          (readyList events pending (retainCooldown st.cooldown env.instant) env.now)
          env.instant) = some (st', out) := h
    by_cases hrdy : (readyList events pending (retainCooldown st.cooldown env.instant)
        env.now).isEmpty
    · rw [if_pos hrdy] at hred
      have h2 := Option.some.inj hred
      injection h2 with h2a h2b
      rw [← h2a]
      intro p hp
      exact hpc2 p (List.mem_of_mem_filter hp)
    · rw [if_neg hrdy] at hred
      unfold fireAll at hred
      intro p hp
      exact hpc2 p (fireAll_pending_subset env.instant _ _ st' out hred p hp)

theorem schedStep_cover {events : Events} {st : SchedState}
    {arrivals : List ReferencingEvent} {env : TickEnv} {st' : SchedState}
    {out : List ReferencingEvent}
    (h : schedStep events st arrivals env = some (st', out)) :
    (∀ eid a, a ≤ env.instant → CoolCover st.cooldown a eid →
      CoolCover st'.cooldown a eid ∨ coolDownMs < env.instant - a) ∧
    (∀ eid, eid ∈ tickFiredIds events st arrivals env →
      CoolCover st'.cooldown env.instant eid) := by
  unfold schedStep at h
  cases happ : applyArrivals events (st.db, st.pending) arrivals with
  | none =>
    rw [happ] at h
    exact Option.noConfusion h
  | some res =>
    obtain ⟨db, pending⟩ := res
    rw [happ] at h
    have hred : (if (readyList events pending (retainCooldown st.cooldown env.instant)
          env.now).isEmpty then
        some (pruneExpired ⟨pending, retainCooldown st.cooldown env.instant, db⟩ env.now,
          ([] : List ReferencingEvent))
      else
        fireAll ⟨pending, retainCooldown st.cooldown env.instant, db⟩
          (readyList events pending (retainCooldown st.cooldown env.instant) env.now)
          env.instant) = some (st', out) := h
    have hfids : tickFiredIds events st arrivals env =
        (readyList events pending (retainCooldown st.cooldown env.instant) env.now).map
          (fun p => p.1) := by
      unfold tickFiredIds
      rw [happ]
    by_cases hrdy : (readyList events pending (retainCooldown st.cooldown env.instant)
        env.now).isEmpty
    · rw [if_pos hrdy] at hred
      have h2 := Option.some.inj hred
      injection h2 with h2a h2b
      constructor
      · intro eid a ha hc
        rcases @coolCover_retain _ env.instant _ _ hc with h1 | h1
        · left
          rw [← h2a]
          exact h1
        · exact Or.inr h1
      · intro eid hm
        rw [hfids, List.isEmpty_iff.mp hrdy] at hm
        exact absurd hm (List.not_mem_nil eid)
    · rw [if_neg hrdy] at hred
      unfold fireAll at hred
      constructor
      · intro eid a ha hc
        rcases @coolCover_retain _ env.instant _ _ hc with h1 | h1
        · exact Or.inl (fireAll_cover env.instant _ _ st' out hred eid a ha (Or.inl h1))
        · exact Or.inr h1
      · intro eid hm
        rw [hfids] at hm
        obtain ⟨p, hp, hpe⟩ := List.mem_map.mp hm
        exact fireAll_cover env.instant _ _ st' out hred eid env.instant le_rfl
          (Or.inr ⟨p, hp, hpe⟩)

theorem schedRun_append (events : Events) (st : SchedState)
    (l1 l2 : List (List ReferencingEvent × TickEnv)) :
    schedRun events st (l1 ++ l2) =
      (schedRun events st l1).bind (fun s => schedRun events s l2) := by
  induction l1 generalizing st with
  | nil => simp [schedRun]
  | cons t rest ih =>
    obtain ⟨arr, env⟩ := t
    show (schedStep events st arr env).bind (fun r => schedRun events r.1 (rest ++ l2)) = _
    cases hstep : schedStep events st arr env with
    | none => simp [schedRun, hstep]
    | some r =>
      simp only [schedRun, hstep, Option.bind_some]
      exact ih r.1

theorem schedRunN_succ (events : Events) (st0 : SchedState)
    (ticks : List (List ReferencingEvent × TickEnv)) (n : Nat) :
    schedRunN events st0 ticks (n + 1) =
      match ticks.get? n with
      | some tick => (schedRunN events st0 ticks n).bind
          (fun st => (schedStep events st tick.1 tick.2).map (fun r => r.1))
      | none => schedRunN events st0 ticks n := by
  unfold schedRunN
  rw [List.take_succ, schedRun_append, ← List.get?_eq_getElem?]
  cases hget : ticks.get? n with
  | none =>
    show (schedRun events st0 (List.take n ticks)).bind
        (fun s => schedRun events s []) = schedRun events st0 (List.take n ticks)
    cases schedRun events st0 (List.take n ticks) <;> rfl
  | some tick =>
    obtain ⟨arr, env⟩ := tick
    show (schedRun events st0 (List.take n ticks)).bind
        (fun s => schedRun events s [(arr, env)]) = _
    congr 1
    funext s
    show (schedStep events s arr env).bind (fun r => schedRun events r.1 []) = _
    cases schedStep events s arr env with
    | none => rfl
    | some r => rfl

/-- The cooldown invariant carried along a run: every past fire is either
still covered by a cooldown entry at least as recent, or some intervening
tick's eviction shows more than the cooldown window has elapsed since it. -/
def coolInv (events : Events) (st0 : SchedState)
    (ticks : List (List ReferencingEvent × TickEnv)) (n : Nat) (st : SchedState) : Prop :=
  ∀ m, m < n → ∀ tm, ticks.get? m = some tm → ∀ eid,
    firedAt events st0 ticks m eid →
    CoolCover st.cooldown tm.2.instant eid ∨
    ∃ k tk, m < k ∧ k < n ∧ ticks.get? k = some tk ∧
      coolDownMs < tk.2.instant - tm.2.instant

theorem schedRun_inv (events : Events) (st0 : SchedState)
    (ticks : List (List ReferencingEvent × TickEnv))
    (hpc : pendingConsistent st0.pending)
    (harr : arrivalsConsistent events ticks)
    (hmono : instantsMono ticks) :
    ∀ n st, schedRunN events st0 ticks n = some st →
      pendingConsistent st.pending ∧ coolInv events st0 ticks n st := by
  intro n
  induction n with
  | zero =>
    intro st h
    unfold schedRunN at h
    simp only [List.take_zero] at h
    have h' : some st0 = some st := h
    cases Option.some.inj h'
    exact ⟨hpc, fun m hm => absurd hm (Nat.not_lt_zero m)⟩
  | succ n ih =>
    intro st h
    rw [schedRunN_succ] at h
    cases hget : ticks.get? n with
    | none =>
      rw [hget] at h
      obtain ⟨hp, hinv⟩ := ih st h
      refine ⟨hp, ?_⟩
      intro m hm tm htm eid hf
      have hmn : m < n := by
        rcases Nat.lt_succ_iff_lt_or_eq.mp hm with h1 | rfl
        · exact h1
        · rw [hget] at htm
          exact absurd htm (by simp)
      rcases hinv m hmn tm htm eid hf with h1 | ⟨k, tk, hk1, hk2, hk3, hk4⟩
      · exact Or.inl h1
      · exact Or.inr ⟨k, tk, hk1, Nat.lt_succ_of_lt hk2, hk3, hk4⟩
    | some tick =>
      rw [hget] at h
      cases hrun : schedRunN events st0 ticks n with
      | none =>
        rw [hrun] at h
        exact Option.noConfusion h
      | some stn =>
        rw [hrun] at h
        have h' : (schedStep events stn tick.1 tick.2).map (fun r => r.1) = some st := h
        cases hstep : schedStep events stn tick.1 tick.2 with
        | none =>
          rw [hstep] at h'
          exact Option.noConfusion h'
        | some r =>
          rw [hstep] at h'
          have hst : r.1 = st := Option.some.inj h'
          obtain ⟨hp, hinv⟩ := ih stn hrun
          have htickmem : tick ∈ ticks := List.get?_mem hget
          have hstep' : schedStep events stn tick.1 tick.2 = some (r.1, r.2) := by
            rw [hstep]
          have hcons := schedStep_pendingConsistent hstep' hp
            (fun a ha => harr tick htickmem a ha)
          have hcov := schedStep_cover hstep'
          refine ⟨hst ▸ hcons, ?_⟩
          intro m hm tm htm eid hf
          rcases Nat.lt_succ_iff_lt_or_eq.mp hm with hmn | rfl
          · rcases hinv m hmn tm htm eid hf with h1 | ⟨k, tk, hk1, hk2, hk3, hk4⟩
            · have hale : tm.2.instant ≤ tick.2.instant :=
                hmono m n (le_of_lt hmn) tm tick htm hget
              rcases hcov.1 eid tm.2.instant hale h1 with h2 | h2
              · exact Or.inl (hst ▸ h2)
              · exact Or.inr ⟨n, tick, hmn, Nat.lt_succ_self n, hget, h2⟩
            · exact Or.inr ⟨k, tk, hk1, Nat.lt_succ_of_lt hk2, hk3, hk4⟩
          · obtain ⟨stx, tickx, hrx, hgx, hmemx⟩ := hf
            rw [hrun] at hrx
            rw [hget] at hgx
            cases Option.some.inj hrx
            cases Option.some.inj hgx
            rw [hget] at htm
            cases Option.some.inj htm
            exact Or.inl (hst ▸ hcov.2 eid hmemx)

theorem readyList_mem {events : Events} {pending : List (String × ReferencingEvent)}
    {cooldown : List (String × Nat)} {now : DateTimeL} {p : String × ReferencingEvent}
    (h : p ∈ readyList events pending cooldown now) :
    ∃ e, (p.1, e) ∈ pending ∧
      cooldown.any (fun c => c.1 = e.eventId) = false ∧
      ∃ te, e.timeEvent = some te ∧ te.matches now = true ∧
        events.getNextEvent e = some p.2 := by
  unfold readyList at h
  obtain ⟨q, hq, hqe⟩ := List.mem_filterMap.mp h
  by_cases hcd : cooldown.any (fun c => c.1 = q.2.eventId)
  · rw [if_neg (by simp [hcd])] at hqe
    exact Option.noConfusion hqe
  · rw [if_pos (by simp [hcd])] at hqe
    cases hte : q.2.timeEvent with
    | none =>
      rw [hte] at hqe
      exact Option.noConfusion hqe
    | some te =>
      rw [hte] at hqe
      have hqe' : (if te.matches now = true then
          Option.map (fun ne => (q.1, ne)) (events.getNextEvent q.2) else none) = some p := hqe
      by_cases hm : te.matches now
      · rw [if_pos hm] at hqe'
        cases hne : events.getNextEvent q.2 with
        | none =>
          rw [hne] at hqe'
          exact Option.noConfusion hqe'
        | some ne =>
          rw [hne] at hqe'
          have hqp := Option.some.inj hqe'
          refine ⟨q.2, ?_, ?_, te, hte, hm, ?_⟩
          · rw [← congrArg Prod.fst hqp]
            exact hq
          · exact Bool.eq_false_iff.mpr hcd
          · rw [hne, ← congrArg Prod.snd hqp]
      · rw [if_neg hm] at hqe'
        exact Option.noConfusion hqe'

/-- C1: every event the timer scheduler fires at a tick satisfied its
execution window at that tick's clock reading and had no live cooldown
entry for its event id; and along any run with a monotone monotonic clock,
catalog-consistent arrivals and an initially empty cooldown map, the same
event id never fires twice within the three-second cooldown window. -/
theorem c1_timer_fire_window_and_cooldown (events : Events) (st0 : SchedState)
    (ticks : List (List ReferencingEvent × TickEnv))
    (_hcd : st0.cooldown = [])
    (hpc : pendingConsistent st0.pending)
    (harr : arrivalsConsistent events ticks)
    (hmono : instantsMono ticks) :
    (∀ i st tick, schedRunN events st0 ticks i = some st → ticks.get? i = some tick →
      ∀ eid ∈ tickFiredIds events st tick.1 tick.2,
        ∃ res, applyArrivals events (st.db, st.pending) tick.1 = some res ∧
          ∃ e, (eid, e) ∈ res.2 ∧
            (retainCooldown st.cooldown tick.2.instant).any
              (fun c => c.1 = e.eventId) = false ∧
            ∃ te, e.timeEvent = some te ∧ te.matches tick.2.now = true ∧
              (∀ r, te.executeTime = some r →
                r.withinExecutionPeriod tick.2.now = true)) ∧
    (∀ i j eid, i < j → firedAt events st0 ticks i eid → firedAt events st0 ticks j eid →
      ∀ ti tj, ticks.get? i = some ti → ticks.get? j = some tj →
        coolDownMs < tj.2.instant - ti.2.instant) := by
  constructor
  · intro i st tick _ _ eid hmem
    unfold tickFiredIds at hmem
    cases happ : applyArrivals events (st.db, st.pending) tick.1 with
    | none =>
      rw [happ] at hmem
      exact absurd hmem (List.not_mem_nil eid)
    | some res =>
      rw [happ] at hmem
      obtain ⟨p, hp, hpe⟩ := List.mem_map.mp hmem
      obtain ⟨e, hepend, hecd, te, hte, htm, hnx⟩ := readyList_mem hp
      refine ⟨res, rfl, e, hpe ▸ hepend, hecd, te, hte, htm, ?_⟩
      intro r hr
      unfold TimeEvent.matches at htm
      rw [hr] at htm
      exact htm
  · intro i j eid hij hfi hfj ti tj hti htj
    obtain ⟨stj, tickj, hrunj, hgetj, hmemj⟩ := hfj
    have hinv := (schedRun_inv events st0 ticks hpc harr hmono j stj hrunj).2
    have hpcj := (schedRun_inv events st0 ticks hpc harr hmono j stj hrunj).1
    rw [htj] at hgetj
    cases Option.some.inj hgetj
    rcases hinv i hij ti hti eid hfi with hcov | ⟨k, tk, hk1, hk2, hk3, hk4⟩
    · obtain ⟨t, hat, hmemcd⟩ := hcov
      unfold tickFiredIds at hmemj
      cases happ : applyArrivals events (stj.db, stj.pending) tj.1 with
      | none =>
        rw [happ] at hmemj
        exact absurd hmemj (List.not_mem_nil eid)
      | some res =>
        rw [happ] at hmemj
        obtain ⟨p, hp, hpe⟩ := List.mem_map.mp hmemj
        obtain ⟨e, hepend, hecd, _, _, _, _⟩ := readyList_mem hp
        have hecons : e.eventId = p.1 := by
          rcases applyArrivals_pending_mem events tj.1 _ _ happ (p.1, e) hepend with
            h1 | ⟨a, ha, haid, hae⟩
          · exact hpcj (p.1, e) h1
          · simp only at hae haid
            rw [hae]
            have harr2 := harr tj (List.get?_mem htj) a ha
            rw [harr2] at haid
            exact Option.some.inj haid
        have hnotin : (eid, t) ∉ retainCooldown stj.cooldown tj.2.instant := by
          intro hmem2
          have : (retainCooldown stj.cooldown tj.2.instant).any
              (fun c => c.1 = e.eventId) = true :=
            List.any_eq_true.mpr ⟨(eid, t), hmem2, by simp [hecons, hpe]⟩
          rw [hecd] at this
          exact Bool.noConfusion this
        have hdrop : ¬ (tj.2.instant - t ≤ coolDownMs) := by
          intro hle
          exact hnotin (List.mem_filter.mpr ⟨hmemcd, by simpa using hle⟩)
        have h1 : tj.2.instant - t ≤ tj.2.instant - ti.2.instant :=
          Nat.sub_le_sub_left hat tj.2.instant
        omega
    · have hkj : tk.2.instant ≤ tj.2.instant :=
        hmono k j (le_of_lt hk2) tk tj hk3 htj
      have h1 : tk.2.instant - ti.2.instant ≤ tj.2.instant - ti.2.instant :=
        Nat.sub_le_sub_right hkj ti.2.instant
      omega

/-- A time-of-day event whose `next` is `eventPassB`. -/
def eventTimeA : ReferencingEvent :=
  ⟨"a", .time ⟨none, some (.time 0 "t"), none⟩, some (.name "b"), .null, none, .empty, .yes⟩

/-- A plain pass event. -/
def eventPassB : ReferencingEvent :=
  ⟨"b", .pass, none, .null, none, .empty, .yes⟩

/-- A two-event catalog for the C1 witness run. -/
def catC1 : Events := ⟨[eventTimeA, eventPassB]⟩

/-- Two ticks four seconds apart, each delivering `eventTimeA`. -/
def ticksC1 : List (List ReferencingEvent × TickEnv) :=
  [([eventTimeA], ⟨0, ⟨0⟩⟩), ([eventTimeA], ⟨4000, ⟨0⟩⟩)]

theorem ticksC1_mono : instantsMono ticksC1 := by
  intro i j hij ti tj hti htj
  have hi : i < 2 := by
    by_contra hlt
    rw [List.get?_eq_none.mpr (by simp [ticksC1]; omega)] at hti
    exact Option.noConfusion hti
  have hj : j < 2 := by
    by_contra hlt
    rw [List.get?_eq_none.mpr (by simp [ticksC1]; omega)] at htj
    exact Option.noConfusion htj
  interval_cases i <;> interval_cases j <;>
    first
      | omega
      | (cases Option.some.inj hti
         cases Option.some.inj htj
         decide)

theorem st0C1_consistent : pendingConsistent (SchedState.mk [] [] []).pending := by
  intro p hp
  exact absurd hp (List.not_mem_nil p)

theorem firedAtC1_zero : firedAt catC1 ⟨[], [], []⟩ ticksC1 0 "a" :=
  ⟨⟨[], [], []⟩, ([eventTimeA], ⟨0, ⟨0⟩⟩), rfl, rfl, by decide⟩

theorem firedAtC1_one : firedAt catC1 ⟨[], [], []⟩ ticksC1 1 "a" :=
  ⟨⟨[], [("a", 0)], []⟩, ([eventTimeA], ⟨4000, ⟨0⟩⟩), rfl, rfl, by decide⟩

/-- Witness for C1: in the concrete two-tick run the event fires at both
ticks, and the theorem yields that more than the cooldown window elapsed
between them. -/
theorem c1_timer_fire_window_and_cooldown_witness :
    ((⟨[], [], []⟩ : SchedState).cooldown = [] ∧
      pendingConsistent (⟨[], [], []⟩ : SchedState).pending ∧
      arrivalsConsistent catC1 ticksC1 ∧ instantsMono ticksC1 ∧
      (0 : Nat) < 1 ∧ firedAt catC1 ⟨[], [], []⟩ ticksC1 0 "a" ∧
      firedAt catC1 ⟨[], [], []⟩ ticksC1 1 "a" ∧
      ticksC1.get? 0 = some ([eventTimeA], ⟨0, ⟨0⟩⟩) ∧
      ticksC1.get? 1 = some ([eventTimeA], ⟨4000, ⟨0⟩⟩)) ∧
    coolDownMs < (4000 : Nat) - 0 :=
  have harr : arrivalsConsistent catC1 ticksC1 := by
    unfold arrivalsConsistent
    decide
  ⟨⟨rfl, st0C1_consistent, harr, ticksC1_mono, by omega, firedAtC1_zero, firedAtC1_one,
      rfl, rfl⟩,
    (c1_timer_fire_window_and_cooldown catC1 ⟨[], [], []⟩ ticksC1 rfl st0C1_consistent
        harr ticksC1_mono).2 0 1 "a" (by omega) firedAtC1_zero firedAtC1_one
      ([eventTimeA], ⟨0, ⟨0⟩⟩) ([eventTimeA], ⟨4000, ⟨0⟩⟩) rfl rfl⟩

/-! ### C4: pending-map uniqueness and last-writer-wins supersession -/

theorem uniqueKeys_alistInsert {α : Type} {l : List (String × α)} {k : String} {v : α}
    (h : uniqueKeys l) : uniqueKeys (alistInsert l k v) := by
  unfold alistInsert
  by_cases hany : l.any (fun p => p.1 = k) = true
  · rw [if_pos hany]
    unfold uniqueKeys
    have hkeys : (l.map (fun p => if p.1 = k then (k, v) else p)).map Prod.fst =
        l.map Prod.fst := by
      rw [List.map_map]
      apply List.map_congr_left
      intro p _
      by_cases hk : p.1 = k <;> simp [hk]
    rw [hkeys]
    exact h
  · rw [if_neg hany]
    unfold uniqueKeys
    rw [List.map_append]
    apply List.Nodup.append h (List.nodup_singleton k)
    intro x hx hx2
    rw [List.mem_singleton] at hx2
    subst hx2
    obtain ⟨p, hp, hpk⟩ := List.mem_map.mp hx
    have hnot := List.any_eq_false.mp (Bool.eq_false_iff.mpr hany)
    exact hnot p hp (by simp [hpk])

theorem uniqueKeys_filter {α : Type} {l : List (String × α)} {f : String × α → Bool}
    (h : uniqueKeys l) : uniqueKeys (l.filter f) :=
  List.Nodup.sublist (List.Sublist.map Prod.fst (List.filter_sublist l)) h

theorem find_map_insert {α : Type} (k : String) (v : α) :
    ∀ l : List (String × α), l.any (fun p => p.1 = k) = true →
      (l.map (fun p => if p.1 = k then (k, v) else p)).find?
        (fun p => p.1 = k) = some (k, v) := by
  intro l
  induction l with
  | nil => intro hany; simp at hany
  | cons p rest ih =>
    intro hany
    by_cases hk : p.1 = k
    · rw [List.map_cons, if_pos hk, List.find?_cons_of_pos _ (by simp)]
    · rw [List.map_cons, if_neg hk, List.find?_cons_of_neg _ (by simp [hk])]
      simp only [List.any_cons] at hany
      exact ih (by simpa [hk] using hany)

theorem find_append_single {α : Type} (k : String) (v : α) :
    ∀ l : List (String × α), l.any (fun p => p.1 = k) = false →
      (l ++ [(k, v)]).find? (fun p => p.1 = k) = some (k, v) := by
  intro l
  induction l with
  | nil => intro _; simp
  | cons p rest ih =>
    intro hany
    simp only [List.any_cons, Bool.or_eq_false_iff] at hany
    rw [List.cons_append, List.find?_cons_of_neg _ (by simpa using hany.1)]
    exact ih hany.2

theorem alistLookup_insert {α : Type} (l : List (String × α)) (k : String) (v : α) :
    alistLookup (alistInsert l k v) k = some v := by
  unfold alistInsert alistLookup
  by_cases hany : l.any (fun p => p.1 = k) = true
  · rw [if_pos hany, find_map_insert k v l hany]
    rfl
  · rw [if_neg hany, find_append_single k v l (Bool.eq_false_iff.mpr hany)]
    rfl

theorem applyArrivals_uniqueKeys (events : Events) :
    ∀ (arrivals : List ReferencingEvent)
      (acc res : List (String × ReferencingEvent) × List (String × ReferencingEvent)),
      applyArrivals events acc arrivals = some res →
      uniqueKeys acc.2 → uniqueKeys res.2 := by
  intro arrivals
  induction arrivals with
  | nil =>
    intro acc res h hu
    unfold applyArrivals at h
    cases h
    exact hu
  | cons a rest ih =>
    intro acc res h hu
    unfold applyArrivals at h
    cases hid : events.getEventId a.name with
    | none =>
      rw [hid] at h
      exact Option.noConfusion h
    | some eventId =>
      rw [hid] at h
      exact ih _ res h (uniqueKeys_alistInsert hu)

theorem fireAll_uniqueKeys (inst : Nat) (ready : List (String × ReferencingEvent)) :
    ∀ (acc : SchedState × List ReferencingEvent) (st' : SchedState)
      (out' : List ReferencingEvent),
      List.foldlM (fun acc fire => fireStep acc fire inst) acc ready = some (st', out') →
      uniqueKeys acc.1.pending → uniqueKeys st'.pending := by
  induction ready with
  | nil =>
    intro acc st' out' hfold hu
    simp only [List.foldlM_nil, Option.pure_def, Option.some_inj] at hfold
    obtain ⟨st0, out0⟩ := acc
    cases hfold
    exact hu
  | cons f fs ih =>
    intro acc st' out' hfold hu
    simp only [List.foldlM_cons] at hfold
    cases hstep : fireStep acc f inst with
    | none =>
      rw [hstep] at hfold
      exact Option.noConfusion hfold
    | some acc1 =>
      rw [hstep] at hfold
      have hfold' : List.foldlM (fun acc fire => fireStep acc fire inst) acc1 fs =
          some (st', out') := hfold
      refine ih acc1 st' out' hfold' ?_
      unfold fireStep at hstep
      cases hlk : alistLookup acc.1.pending f.1 with
      | none =>
        rw [hlk] at hstep
        exact Option.noConfusion hstep
      | some c =>
        rw [hlk] at hstep
        have h2 := Option.some.inj hstep
        rw [← h2]
        exact uniqueKeys_filter hu

theorem schedStep_uniqueKeys {events : Events} {st : SchedState}
    {arrivals : List ReferencingEvent} {env : TickEnv} {st' : SchedState}
    {out : List ReferencingEvent}
    (h : schedStep events st arrivals env = some (st', out))
    (hu : uniqueKeys st.pending) : uniqueKeys st'.pending := by
  unfold schedStep at h
  cases happ : applyArrivals events (st.db, st.pending) arrivals with
  | none =>
    rw [happ] at h
    exact Option.noConfusion h
  | some res =>
    obtain ⟨db, pending⟩ := res
    rw [happ] at h
    have hu2 : uniqueKeys pending := applyArrivals_uniqueKeys events arrivals _ _ happ hu
    have hred : (if (readyList events pending (retainCooldown st.cooldown env.instant)
          env.now).isEmpty then
        some (pruneExpired ⟨pending, retainCooldown st.cooldown env.instant, db⟩ env.now,
          ([] : List ReferencingEvent))
      else
        fireAll ⟨pending, retainCooldown st.cooldown env.instant, db⟩
          (readyList events pending (retainCooldown st.cooldown env.instant) env.now)
          env.instant) = some (st', out) := h
    by_cases hrdy : (readyList events pending (retainCooldown st.cooldown env.instant)
        env.now).isEmpty
    · rw [if_pos hrdy] at hred
      have h2 := Option.some.inj hred
      injection h2 with h2a h2b
      rw [← h2a]
      exact uniqueKeys_filter hu2
    · rw [if_neg hrdy] at hred
      unfold fireAll at hred
      exact fireAll_uniqueKeys env.instant _ _ st' out hred hu2

/-- C4: in every reachable scheduler state the pending map has at most one
entry per event id; and an arriving `Time`/`Repeat` event keyed by the
catalog's event id for its name is persisted under that id and replaces any
pending entry with the same id (last-writer-wins: looking the id up after
the arrival yields the new event, in the store as well as in the pending
map). -/
theorem c4_pending_unique_and_lww (events : Events) (st0 : SchedState)
    (ticks : List (List ReferencingEvent × TickEnv))
    (huniq : uniqueKeys st0.pending) :
    (∀ n st, schedRunN events st0 ticks n = some st → uniqueKeys st.pending) ∧
    (∀ (db pending : List (String × ReferencingEvent)) (a : ReferencingEvent) (k : String),
      events.getEventId a.name = some k →
      applyArrivals events (db, pending) [a] =
        some (alistInsert db k a, alistInsert pending k a) ∧
      alistLookup (alistInsert pending k a) k = some a ∧
      alistLookup (alistInsert db k a) k = some a) := by
  constructor
  · intro n
    induction n with
    | zero =>
      intro st h
      have h' : some st0 = some st := h
      cases Option.some.inj h'
      exact huniq
    | succ n ih =>
      intro st h
      rw [schedRunN_succ] at h
      cases hget : ticks.get? n with
      | none =>
        rw [hget] at h
        exact ih st h
      | some tick =>
        rw [hget] at h
        cases hrun : schedRunN events st0 ticks n with
        | none =>
          rw [hrun] at h
          exact Option.noConfusion h
        | some stn =>
          rw [hrun] at h
          have h' : (schedStep events stn tick.1 tick.2).map (fun r => r.1) = some st := h
          cases hstep : schedStep events stn tick.1 tick.2 with
          | none =>
            rw [hstep] at h'
            exact Option.noConfusion h'
          | some r =>
            rw [hstep] at h'
            have hst : r.1 = st := Option.some.inj h'
            have hstep' : schedStep events stn tick.1 tick.2 = some (r.1, r.2) := by
              rw [hstep]
            exact hst ▸ schedStep_uniqueKeys hstep' (ih stn hrun)
  · intro db pending a k hk
    refine ⟨?_, alistLookup_insert pending k a, alistLookup_insert db k a⟩
    unfold applyArrivals
    rw [hk]
    rfl

/-- Witness for C4 on the concrete catalog and run of the C1 witness. -/
theorem c4_pending_unique_and_lww_witness :
    uniqueKeys (SchedState.mk [] [] []).pending ∧
      ((∀ n st, schedRunN catC1 ⟨[], [], []⟩ ticksC1 n = some st → uniqueKeys st.pending) ∧
        (∀ (db pending : List (String × ReferencingEvent)) (a : ReferencingEvent)
            (k : String),
          catC1.getEventId a.name = some k →
          applyArrivals catC1 (db, pending) [a] =
            some (alistInsert db k a, alistInsert pending k a) ∧
          alistLookup (alistInsert pending k a) k = some a ∧
          alistLookup (alistInsert db k a) k = some a)) :=
  have hu : uniqueKeys (SchedState.mk [] [] []).pending := by
    unfold uniqueKeys
    simp
  ⟨hu, c4_pending_unique_and_lww catC1 ⟨[], [], []⟩ ticksC1 hu⟩

/-! ### C10: entries whose `next` does not resolve never fire -/

theorem mem_alistInsert_of_ne {α : Type} {l : List (String × α)} {k eid : String}
    {x v : α} (h : (eid, x) ∈ l) (hne : k ≠ eid) : (eid, x) ∈ alistInsert l k v := by
  unfold alistInsert
  by_cases hany : l.any (fun p => p.1 = k) = true
  · rw [if_pos hany]
    refine List.mem_map.mpr ⟨(eid, x), h, ?_⟩
    rw [if_neg (by simpa using Ne.symm hne)]
  · rw [if_neg hany]
    exact List.mem_append_left _ h

theorem applyArrivals_preserve (events : Events) (eid : String) :
    ∀ (arrivals : List ReferencingEvent)
      (acc res : List (String × ReferencingEvent) × List (String × ReferencingEvent)),
      applyArrivals events acc arrivals = some res →
      (∀ a ∈ arrivals, events.getEventId a.name ≠ some eid) →
      (∀ x, (eid, x) ∈ acc.1 → (eid, x) ∈ res.1) ∧
      (∀ x, (eid, x) ∈ acc.2 → (eid, x) ∈ res.2) := by
  intro arrivals
  induction arrivals with
  | nil =>
    intro acc res h _
    unfold applyArrivals at h
    cases h
    exact ⟨fun x hx => hx, fun x hx => hx⟩
  | cons a rest ih =>
    intro acc res h hno
    unfold applyArrivals at h
    cases hid : events.getEventId a.name with
    | none =>
      rw [hid] at h
      exact Option.noConfusion h
    | some eventId =>
      rw [hid] at h
      have hne : eventId ≠ eid := by
        intro hcontra
        exact hno a (List.mem_cons_self a rest) (hcontra ▸ hid)
      have hrest := ih _ res h (fun b hb => hno b (List.mem_cons_of_mem a hb))
      exact ⟨fun x hx => hrest.1 x (mem_alistInsert_of_ne hx hne),
        fun x hx => hrest.2 x (mem_alistInsert_of_ne hx hne)⟩

theorem fireAll_preserve (inst : Nat) (eid : String)
    (ready : List (String × ReferencingEvent)) :
    ∀ (acc : SchedState × List ReferencingEvent) (st' : SchedState)
      (out' : List ReferencingEvent),
      List.foldlM (fun acc fire => fireStep acc fire inst) acc ready = some (st', out') →
      (∀ f ∈ ready, f.1 ≠ eid) →
      (∀ x, (eid, x) ∈ acc.1.pending → (eid, x) ∈ st'.pending) ∧
      (∀ x, (eid, x) ∈ acc.1.db → (eid, x) ∈ st'.db) ∧
      (∀ t, (eid, t) ∈ st'.cooldown → (eid, t) ∈ acc.1.cooldown) := by
  induction ready with
  | nil =>
    intro acc st' out' hfold _
    simp only [List.foldlM_nil, Option.pure_def, Option.some_inj] at hfold
    obtain ⟨st0, out0⟩ := acc
    cases hfold
    exact ⟨fun x hx => hx, fun x hx => hx, fun t ht => ht⟩
  | cons f fs ih =>
    intro acc st' out' hfold hno
    simp only [List.foldlM_cons] at hfold
    cases hstep : fireStep acc f inst with
    | none =>
      rw [hstep] at hfold
      exact Option.noConfusion hfold
    | some acc1 =>
      rw [hstep] at hfold
      have hfold' : List.foldlM (fun acc fire => fireStep acc fire inst) acc1 fs =
          some (st', out') := hfold
      have hfne : f.1 ≠ eid := hno f (List.mem_cons_self f fs)
      have hrest := ih acc1 st' out' hfold' (fun g hg => hno g (List.mem_cons_of_mem f hg))
      unfold fireStep at hstep
      cases hlk : alistLookup acc.1.pending f.1 with
      | none =>
        rw [hlk] at hstep
        exact Option.noConfusion hstep
      | some c =>
        rw [hlk] at hstep
        have h2 := Option.some.inj hstep
        have hpend : acc1.1.pending = alistRemove acc.1.pending f.1 := by rw [← h2]
        have hdb : acc1.1.db = alistRemove acc.1.db f.1 := by rw [← h2]
        have hcd : acc1.1.cooldown = alistInsert acc.1.cooldown f.1 inst := by rw [← h2]
        refine ⟨?_, ?_, ?_⟩
        · intro x hx
          refine hrest.1 x ?_
          rw [hpend]
          exact List.mem_filter.mpr ⟨hx, by simpa using Ne.symm hfne⟩
        · intro x hx
          refine hrest.2.1 x ?_
          rw [hdb]
          exact List.mem_filter.mpr ⟨hx, by simpa using Ne.symm hfne⟩
        · intro t ht
          have h3 := hrest.2.2 t ht
          rw [hcd] at h3

          rcases mem_alistInsert h3 with h4 | h4
          · exact h4
          · exact absurd (congrArg Prod.fst h4) (by simpa using Ne.symm hfne)

theorem schedStep_c10 {events : Events} {st : SchedState}
    {arrivals : List ReferencingEvent} {env : TickEnv} {st' : SchedState}
    {out : List ReferencingEvent} {eid : String} {e : ReferencingEvent}
    (hstep : schedStep events st arrivals env = some (st', out))
    (honly : ∀ e', (eid, e') ∈ st.pending → e' = e)
    (hnores : events.getNextEvent e = none)
    (hnoarr : ∀ a ∈ arrivals, events.getEventId a.name ≠ some eid) :
    eid ∉ tickFiredIds events st arrivals env ∧
    (∀ e', (eid, e') ∈ st'.pending → e' = e) ∧
    (∀ t, (eid, t) ∈ st'.cooldown → (eid, t) ∈ st.cooldown) ∧
    (∀ te ti s, e.timeEvent = some te → te.executeTime = some (.time ti s) →
      ((eid, e) ∈ st.pending → (eid, e) ∈ st'.pending) ∧
      (∀ v, (eid, v) ∈ st.db → (eid, v) ∈ st'.db)) := by
  unfold schedStep at hstep
  cases happ : applyArrivals events (st.db, st.pending) arrivals with
  | none =>
    rw [happ] at hstep
    exact Option.noConfusion hstep
  | some res =>
    obtain ⟨db, pending⟩ := res
    rw [happ] at hstep
    have hpres := applyArrivals_preserve events eid arrivals _ _ happ hnoarr
    have honly2 : ∀ e', (eid, e') ∈ pending → e' = e := by
      intro e' he'
      rcases applyArrivals_pending_mem events arrivals _ _ happ (eid, e') he' with
        h1 | ⟨a, ha, haid, hae⟩
      · exact honly e' h1
      · exact absurd haid (hnoarr a ha)
    have hnofire : ∀ p ∈ readyList events pending
        (retainCooldown st.cooldown env.instant) env.now, p.1 ≠ eid := by
      intro p hp hpe
      obtain ⟨e', hepend, _, _, _, _, hnx⟩ := readyList_mem hp
      rw [hpe] at hepend
      rw [honly2 e' hepend] at hnx
      rw [hnores] at hnx
      exact Option.noConfusion hnx
    have hfids : tickFiredIds events st arrivals env =
        (readyList events pending (retainCooldown st.cooldown env.instant) env.now).map
          (fun p => p.1) := by
      unfold tickFiredIds
      rw [happ]
    have hnotfired : eid ∉ tickFiredIds events st arrivals env := by
      rw [hfids]
      intro hmem
      obtain ⟨p, hp, hpe⟩ := List.mem_map.mp hmem
      exact hnofire p hp hpe
    have hred : (if (readyList events pending (retainCooldown st.cooldown env.instant)
          env.now).isEmpty then
        some (pruneExpired ⟨pending, retainCooldown st.cooldown env.instant, db⟩ env.now,
          ([] : List ReferencingEvent))
      else
        fireAll ⟨pending, retainCooldown st.cooldown env.instant, db⟩
          (readyList events pending (retainCooldown st.cooldown env.instant) env.now)
          env.instant) = some (st', out) := hstep
    by_cases hrdy : (readyList events pending (retainCooldown st.cooldown env.instant)
        env.now).isEmpty
    · rw [if_pos hrdy] at hred
      have h2 := Option.some.inj hred
      injection h2 with h2a h2b
      refine ⟨hnotfired, ?_, ?_, ?_⟩
      · intro e' he'
        rw [← h2a] at he'
        exact honly2 e' (List.mem_of_mem_filter he')
      · intro t ht
        rw [← h2a] at ht
        exact List.mem_of_mem_filter ht
      · intro te ti s hte hti
        have hexp : TimeEvent.expired te env.now = false := by
          unfold TimeEvent.expired
          rw [hti]
        constructor
        · intro hin
          rw [← h2a]
          refine List.mem_filter.mpr ⟨hpres.2 e hin, ?_⟩
          simp [ReferencingEvent.timeEvent] at hte ⊢
          simp [hte, hexp]
        · intro v hv
          rw [← h2a]
          refine List.mem_filter.mpr ⟨hpres.1 v hv, ?_⟩
          simp only [decide_eq_true_eq]
          intro hcontra
          unfold expiredIds at hcontra
          have hcmem : eid ∈ List.filterMap
              (fun p => p.2.timeEvent.bind
                (fun te => if te.expired env.now = true then some p.1 else none))
              pending := by simpa using hcontra
          obtain ⟨p, hp, hpe⟩ := List.mem_filterMap.mp hcmem
          cases hpte : p.2.timeEvent with
          | none =>
            rw [hpte] at hpe
            exact Option.noConfusion hpe
          | some pte =>
            rw [hpte] at hpe
            have hpe' : (if pte.expired env.now = true then some p.1 else none) =
                some eid := hpe
            by_cases hpex : pte.expired env.now = true
            · rw [if_pos hpex] at hpe'
              have hpeid : p.1 = eid := Option.some.inj hpe'
              have hpmem : (eid, p.2) ∈ pending := by
                rw [← hpeid]
                exact hp
              have hpeq : p.2 = e := honly2 p.2 hpmem
              rw [hpeq, hte] at hpte
              have hptee : te = pte := Option.some.inj hpte
              rw [← hptee, hexp] at hpex
              exact Bool.noConfusion hpex
            · rw [if_neg hpex] at hpe'
              exact Option.noConfusion hpe'
    · rw [if_neg hrdy] at hred
      unfold fireAll at hred
      have hfp := fireAll_preserve env.instant eid _ _ st' out hred hnofire
      refine ⟨hnotfired, ?_, ?_, ?_⟩
      · intro e' he'
        exact honly2 e' (fireAll_pending_subset env.instant _ _ st' out hred (eid, e') he')
      · intro t ht
        exact List.mem_of_mem_filter (hfp.2.2 t ht)
      · intro te ti s hte hti
        exact ⟨fun hin => hfp.1 e (hpres.2 e hin), fun v hv => hfp.2.1 v (hpres.1 v hv)⟩

theorem tickFired_excluded {events : Events} {st : SchedState}
    {arrivals : List ReferencingEvent} {env : TickEnv} {eid : String}
    {e : ReferencingEvent}
    (honly : ∀ e', (eid, e') ∈ st.pending → e' = e)
    (hnores : events.getNextEvent e = none)
    (hnoarr : ∀ a ∈ arrivals, events.getEventId a.name ≠ some eid) :
    eid ∉ tickFiredIds events st arrivals env := by
  unfold tickFiredIds
  cases happ : applyArrivals events (st.db, st.pending) arrivals with
  | none => exact List.not_mem_nil eid
  | some res =>
    intro hmem
    obtain ⟨p, hp, hpe⟩ := List.mem_map.mp hmem
    obtain ⟨e', hepend, _, _, _, _, hnx⟩ := readyList_mem hp
    rw [hpe] at hepend
    have he' : e' = e := by
      rcases applyArrivals_pending_mem events arrivals _ _ happ (eid, e') hepend with
        h1 | ⟨a, ha, haid, hae⟩
      · exact honly e' h1
      · exact absurd haid (hnoarr a ha)
    rw [he', hnores] at hnx
    exact Option.noConfusion hnx

/-- C10: a pending timer entry whose `next` does not resolve in the catalog
is never fired: on every tick of every run it stays out of the ready set, so
it never leaves the pending map through firing, its persisted copy is never
deleted and no cooldown is recorded under its id; with a time-of-day-only
execute time it never expires either, so it stays pending (and persisted)
for the whole run. -/
theorem c10_unresolvable_next_never_fires (events : Events) (st0 : SchedState)
    (ticks : List (List ReferencingEvent × TickEnv)) (eid : String)
    (e : ReferencingEvent)
    (honly : ∀ e', (eid, e') ∈ st0.pending → e' = e)
    (hnores : events.getNextEvent e = none)
    (hnoarr : ∀ tick ∈ ticks, ∀ a ∈ tick.1, events.getEventId a.name ≠ some eid) :
    (∀ i sti tick, schedRunN events st0 ticks i = some sti → ticks.get? i = some tick →
      eid ∉ tickFiredIds events sti tick.1 tick.2) ∧
    (∀ n stn, schedRunN events st0 ticks n = some stn →
      (∀ e', (eid, e') ∈ stn.pending → e' = e) ∧
      (∀ t, (eid, t) ∈ stn.cooldown → (eid, t) ∈ st0.cooldown) ∧
      (∀ te ti s, e.timeEvent = some te → te.executeTime = some (.time ti s) →
        ((eid, e) ∈ st0.pending → (eid, e) ∈ stn.pending) ∧
        (∀ v, (eid, v) ∈ st0.db → (eid, v) ∈ stn.db))) := by
  have hinv : ∀ n stn, schedRunN events st0 ticks n = some stn →
      (∀ e', (eid, e') ∈ stn.pending → e' = e) ∧
      (∀ t, (eid, t) ∈ stn.cooldown → (eid, t) ∈ st0.cooldown) ∧
      (∀ te ti s, e.timeEvent = some te → te.executeTime = some (.time ti s) →
        ((eid, e) ∈ st0.pending → (eid, e) ∈ stn.pending) ∧
        (∀ v, (eid, v) ∈ st0.db → (eid, v) ∈ stn.db)) := by
    intro n
    induction n with
    | zero =>
      intro stn h
      have h' : some st0 = some stn := h
      cases Option.some.inj h'
      exact ⟨honly, fun t ht => ht, fun te ti s _ _ => ⟨fun h => h, fun v hv => hv⟩⟩
    | succ n ih =>
      intro stn h
      rw [schedRunN_succ] at h
      cases hget : ticks.get? n with
      | none =>
        rw [hget] at h
        exact ih stn h
      | some tick =>
        rw [hget] at h
        cases hrun : schedRunN events st0 ticks n with
        | none =>
          rw [hrun] at h
          exact Option.noConfusion h
        | some stm =>
          rw [hrun] at h
          have h' : (schedStep events stm tick.1 tick.2).map (fun r => r.1) = some stn := h
          cases hstep : schedStep events stm tick.1 tick.2 with
          | none =>
            rw [hstep] at h'
            exact Option.noConfusion h'
          | some r =>
            rw [hstep] at h'
            have hst : r.1 = stn := Option.some.inj h'
            obtain ⟨ih1, ih2, ih3⟩ := ih stm hrun
            have hstep' : schedStep events stm tick.1 tick.2 = some (r.1, r.2) := by
              rw [hstep]
            have hs := schedStep_c10 hstep' ih1 hnores
              (fun a ha => hnoarr tick (List.get?_mem hget) a ha)
            refine ⟨fun e' he' => hs.2.1 e' (hst ▸ he'), ?_, ?_⟩
            · intro t ht
              exact ih2 t (hs.2.2.1 t (hst ▸ ht))
            · intro te ti s hte hti
              refine ⟨?_, ?_⟩
              · intro hin
                exact hst ▸ (hs.2.2.2 te ti s hte hti).1 ((ih3 te ti s hte hti).1 hin)
              · intro v hv
                exact hst ▸ (hs.2.2.2 te ti s hte hti).2 v ((ih3 te ti s hte hti).2 v hv)
  refine ⟨?_, hinv⟩
  intro i sti tick hrun hget
  exact tickFired_excluded (hinv i sti hrun).1 hnores
    (fun a ha => hnoarr tick (List.get?_mem hget) a ha)

/-- A time-of-day event with no `next` transition. -/
def eventC10 : ReferencingEvent :=
  ⟨"c", .time ⟨none, some (.time 0 "t"), none⟩, none, .null, none, .empty, .yes⟩

/-- Witness for C10: a pending, persisted entry with an unresolvable `next`
and a time-of-day execute time, run over one tick. -/
theorem c10_unresolvable_next_never_fires_witness :
    ((∀ e', ("c", e') ∈ (SchedState.mk [("c", eventC10)] [] [("c", eventC10)]).pending →
        e' = eventC10) ∧
      catC1.getNextEvent eventC10 = none ∧
      (∀ tick ∈ [(([] : List ReferencingEvent), (⟨0, ⟨0⟩⟩ : TickEnv))], ∀ a ∈ tick.1,
        catC1.getEventId a.name ≠ some "c")) ∧
    ((∀ i sti tick,
        schedRunN catC1 ⟨[("c", eventC10)], [], [("c", eventC10)]⟩
          [(([] : List ReferencingEvent), (⟨0, ⟨0⟩⟩ : TickEnv))] i = some sti →
        [(([] : List ReferencingEvent), (⟨0, ⟨0⟩⟩ : TickEnv))].get? i = some tick →
        "c" ∉ tickFiredIds catC1 sti tick.1 tick.2) ∧
      (∀ n stn,
        schedRunN catC1 ⟨[("c", eventC10)], [], [("c", eventC10)]⟩
          [(([] : List ReferencingEvent), (⟨0, ⟨0⟩⟩ : TickEnv))] n = some stn →
        (∀ e', ("c", e') ∈ stn.pending → e' = eventC10) ∧
        (∀ t, ("c", t) ∈ stn.cooldown →
          ("c", t) ∈ (SchedState.mk [("c", eventC10)] [] [("c", eventC10)]).cooldown) ∧
        (∀ te ti s, eventC10.timeEvent = some te →
          te.executeTime = some (.time ti s) →
          (("c", eventC10) ∈
              (SchedState.mk [("c", eventC10)] [] [("c", eventC10)]).pending →
            ("c", eventC10) ∈ stn.pending) ∧
          (∀ v, ("c", v) ∈ (SchedState.mk [("c", eventC10)] [] [("c", eventC10)]).db →
            ("c", v) ∈ stn.db)))) :=
  have honly : ∀ e', ("c", e') ∈
      (SchedState.mk [("c", eventC10)] [] [("c", eventC10)]).pending → e' = eventC10 := by
    intro e' he'
    have := List.mem_singleton.mp he'
    injection this with _ h2
  have hnoarr : ∀ tick ∈ [(([] : List ReferencingEvent), (⟨0, ⟨0⟩⟩ : TickEnv))],
      ∀ a ∈ tick.1, catC1.getEventId a.name ≠ some "c" := by
    intro tick htick a ha
    rw [List.mem_singleton] at htick
    subst htick
    exact absurd ha (List.not_mem_nil a)
  ⟨⟨honly, rfl, hnoarr⟩,
    c10_unresolvable_next_never_fires catC1 ⟨[("c", eventC10)], [], [("c", eventC10)]⟩
      [(([] : List ReferencingEvent), (⟨0, ⟨0⟩⟩ : TickEnv))] "c" eventC10 honly rfl hnoarr⟩

/-! ## Main dispatcher (`event_executor`, src/executors/queue.rs, lines 24-326)

One iteration of the dispatcher loop for a single received event.  External
collaborators — the template renderer, the time parser, the pools and the
file system — are oracle functions in a `DispatchEnv`; actions on them are
recorded as `Effect`s.  `continue` translates to returning the current
outputs; a panic (`expect`) to `none`. -/

/-- `TemplateData` (the render context `{data, metadata, state}`). -/
structure TemplateCtx where
  data : Data
  metadata : JValue
  state : List (String × String)

/-- The dispatcher's external collaborators. -/
structure DispatchEnv where
  render : String → TemplateCtx → Option String
  renderBytes : String → TemplateCtx → Option (List UInt8)
  parse : String → Option TimeResult
  now : DateTimeL
  mqttPool : String → Bool
  clientPool : String → Bool
  httpQueuePool : String → Bool
  publishOk : Bool
  dataBytes : Data → Option (List UInt8)
  fileRead : FileReadEvent → Option (Data × JValue)
  fileWriteOk : FileWriteEvent → Data → Bool

/-- An externally visible action performed by the dispatcher. -/
inductive Effect where
  | mqttSubscribe (topic : List Char) (poolId : String)
  | mqttUnsubscribe (topic poolId : String)
  | mqttPublish (topic : String) (payload : List UInt8) (retain : Bool)
  | apiCallSpawn (url : String)
  | apiListenInsert (poolId : String)
  | apiListenRemove (name poolId : String)
  | fileRead (f : FileReadEvent)
  | fileWrite (f : FileWriteEvent)
  | watchStart (path : String) (recursive : Bool)
  | watchStop (path : String)
  | executeSpawn (command : String) (args : List String)
  | printData (d : Data)

/-- The outcome of dispatching one event: the dispatcher-local state map,
the events enqueued on the main queue, the events handed to the timer
scheduler, and the performed actions. -/
structure DispatchResult where
  state : List (String × String)
  mainOut : List ReferencingEvent
  timerOut : List ReferencingEvent
  effects : List Effect

/-- Lines 49-57: increment the `state.count` counter (first occurrence
stores "0") and extend the state map with the `state.replace` overrides. -/
def updateState (state : List (String × String)) (received : ReferencingEvent) :
    List (String × String) :=
  let state :=
    match received.state.bind (fun s => s.count) with
    | some key =>
      if state.any (fun p => p.1 = key) then
        state.map (fun p =>
          if p.1 = key then (key, Nat.repr ((p.2.toNat?.getD 0) + 1)) else p)
      else state ++ [(key, "0")]
    | none => state
  match received.state with
  | some s => s.replace.foldl (fun acc kv => alistInsert acc kv.1 kv.2) state
  | none => state

/-- Lines 65-77: the next event name — the literal name, or the rendered
template (a render failure yields no name). -/
def nextEventName (env : DispatchEnv) (ctx : TemplateCtx)
    (received : ReferencingEvent) : Option String :=
  match received.nextEvent with
  | some (.template s) =>
    match env.render s ctx with
    | some r => some r
    | none => none
  | some (.name s) => some s
  | none => none

/-- `send_next_event` (lines 36-46): look the name up in the catalog, merge
the payload per the target's policy, deep-merge the metadata, enqueue. -/
def sendNextEvent (events : Events) (data : Data) (metadata : JValue)
    (nextName : Option String) : List ReferencingEvent :=
  match nextName with
  | none => []
  | some refEvent =>
    match events.getEventByName refEvent with
    | some eventToExecute =>
      let e := eventToExecute.merge data
      [{ e with metadata := mergeJsonValueRecursive e.metadata metadata }]
    | none => []

/-- Lines 286-298: render each `replace_args` template and substitute it at
its index; an out-of-range index or a render failure drops the event. -/
def replaceArgsRender (env : DispatchEnv) (ctx : TemplateCtx) :
    List String → List (Nat × String) → Option (List String)
  | args, [] => some args
  | args, (index, template) :: rest =>
    match env.render template ctx with
    | some a =>
      if index < args.length then replaceArgsRender env ctx (args.set index a) rest
      else none
    | none => none

/-- One iteration of the dispatcher loop (lines 48-322) for one received
event: update the state map, compute the next event name, drop self-loops,
then interpret the event's kind — `continue` arms emit no `next`, the
others fall through to `send_next_event`. -/
def dispatchStep (events : Events) (env : DispatchEnv)
    (state : List (String × String)) (received : ReferencingEvent) :
    Option DispatchResult :=
  let state := updateState state received
  let ctx : TemplateCtx := ⟨received.data, received.metadata, state⟩
  let nextName := nextEventName env ctx received
  if nextName = some received.name then
    some ⟨state, [], [], []⟩
  else
    match received.eventType with
    | .mqttSubscribe e =>
      if env.mqttPool e.poolId then
        some ⟨state, [], [], [.mqttSubscribe e.topic e.poolId]⟩
      else
        some ⟨state, [], [], []⟩
    | .mqttUnsubscribe e =>
      let effects := if env.mqttPool e.poolId then
        [Effect.mqttUnsubscribe e.topic e.poolId] else []
      some ⟨state, sendNextEvent events received.data received.metadata nextName, [],
        effects⟩
    | .mqttPublish e =>
      if env.mqttPool e.poolId then
        match env.render e.topic ctx with
        | some t =>
          if t.trim.isEmpty then some ⟨state, [], [], []⟩
          else
            match (match e.body with
                   | some template => env.renderBytes template ctx
                   | none => env.dataBytes received.data) with
            | some payload =>
              if payload.isEmpty then some ⟨state, [], [], []⟩
              else if env.publishOk then
                some ⟨state, sendNextEvent events received.data received.metadata nextName,
                  [], [.mqttPublish t payload e.retain]⟩
              else
                some ⟨state, [], [], [.mqttPublish t payload e.retain]⟩
            | none => some ⟨state, [], [], []⟩
        | none => some ⟨state, [], [], []⟩
      else
        some ⟨state, sendNextEvent events received.data received.metadata nextName, [], []⟩
    | .apiCall e =>
      if env.clientPool e.poolId then
        match env.render e.url ctx with
        | some url => some ⟨state, [], [], [.apiCallSpawn url]⟩
        | none => some ⟨state, [], [], []⟩
      else
        some ⟨state, [], [], []⟩
    | .apiListen e =>
      match e.action with
      | .start =>
        if env.httpQueuePool e.poolId then
          some ⟨state, [], [], [.apiListenInsert e.poolId]⟩
        else
          some ⟨state, [], [], []⟩
      | .stop =>
        let effects := if env.httpQueuePool e.poolId then
          [Effect.apiListenRemove received.name e.poolId] else []
        some ⟨state, sendNextEvent events received.data received.metadata nextName, [],
          effects⟩
    | .period e =>
      if e.isWithinPeriod env.now then
        some ⟨state, sendNextEvent events received.data received.metadata nextName, [], []⟩
      else
        some ⟨state, [], [], []⟩
    | .time t =>
      (t.reset env.parse).map (fun t' =>
        ⟨state, [], [{ received with eventType := .time t' }], []⟩)
    | .repeatEv t =>
      (t.reset env.parse).map (fun t' =>
        ⟨state, [], [{ received with eventType := .repeatEv t' }], []⟩)
    | .fileRead f =>
      match env.fileRead f with
      | some (d, m) =>
        let received' := received.merge d
        let received' := { received' with
          metadata := mergeJsonValueRecursive received'.metadata m }
        some ⟨state, sendNextEvent events received'.data received'.metadata nextName, [],
          [.fileRead f]⟩
      | none => some ⟨state, [], [], [.fileRead f]⟩
    | .fileWrite f =>
      if env.fileWriteOk f received.data then
        some ⟨state, sendNextEvent events received.data received.metadata nextName, [],
          [.fileWrite f]⟩
      else
        some ⟨state, [], [], [.fileWrite f]⟩
    | .fileChanged _ => some ⟨state, [], [], []⟩
    | .watch f =>
      let eff := match f.action with
        | .start => Effect.watchStart f.path f.recursive
        | .stop => Effect.watchStop f.path
      some ⟨state, sendNextEvent events received.data received.metadata nextName, [],
        [eff]⟩
    | .execute c =>
      match replaceArgsRender env ctx c.args c.replaceArgs with
      | some args => some ⟨state, [], [], [.executeSpawn c.command args]⟩
      | none => some ⟨state, [], [], []⟩
    | .print _ =>
      some ⟨state, sendNextEvent events received.data received.metadata nextName, [],
        [.printData received.data]⟩
    | .scanCodeRead _ => some ⟨state, [], [], []⟩
    | .pass =>
      some ⟨state, sendNextEvent events received.data received.metadata nextName, [], []⟩

/-! ### C9: self-referential `next` drops the event -/

/-- C9: when the computed next-event name (literal or rendered) equals the
event's own name, the dispatcher drops the event — no action effect is
performed and nothing is enqueued on the main queue or handed to the timer;
only the state-map bookkeeping (which precedes the check) remains. -/
theorem c9_self_loop_dropped (events : Events) (env : DispatchEnv)
    (state : List (String × String)) (received : ReferencingEvent)
    (h : nextEventName env
        ⟨received.data, received.metadata, updateState state received⟩ received =
      some received.name) :
    dispatchStep events env state received =
      some ⟨updateState state received, [], [], []⟩ := by
  unfold dispatchStep
  rw [if_pos h]

/-- A print event whose literal `next` is its own name. -/
def eventC9 : ReferencingEvent :=
  ⟨"x", .print .stdout, some (.name "x"), .null, none, .empty, .yes⟩

/-- A trivial dispatcher environment for witnesses. -/
def envTrivial : DispatchEnv :=
  ⟨fun _ _ => none, fun _ _ => none, fun _ => none, ⟨0⟩, fun _ => false, fun _ => false,
    fun _ => false, false, fun _ => none, fun _ => none, fun _ _ => false⟩

/-- Witness for C9: a self-referencing print event is dropped whole. -/
theorem c9_self_loop_dropped_witness :
    nextEventName envTrivial
        ⟨eventC9.data, eventC9.metadata, updateState [] eventC9⟩ eventC9 =
      some eventC9.name ∧
    dispatchStep catC1 envTrivial [] eventC9 =
      some ⟨updateState [] eventC9, [], [], []⟩ :=
  ⟨rfl, c9_self_loop_dropped catC1 envTrivial [] eventC9 rfl⟩

/-! ### C3: requeueing of `Repeat` events -/

/-- The claim's "the event with its time result reset": reset the carried
`TimeEvent` through the parser and put it back under the same kind. -/
def resetEventClaim (parse : String → Option TimeResult) (e : ReferencingEvent) :
    Option ReferencingEvent :=
  match e.eventType with
  | .time t => (t.reset parse).map (fun t' => { e with eventType := .time t' })
  | .repeatEv t => (t.reset parse).map (fun t' => { e with eventType := .repeatEv t' })
  | _ => some e

/-- A parser that re-parses the source string "tick" to a later time of
day, as re-parsing a relative phrase at a later instant would. -/
def parseC3 : String → Option TimeResult :=
  fun s => if s = "tick" then some (.time 500 "tick") else none

/-- A repeat event on time-of-day 0, parsed from "tick", with next `n`. -/
def rC3 : ReferencingEvent :=
  ⟨"r", .repeatEv ⟨none, some (.time 0 "tick"), none⟩, some (.name "n"), .null, none,
    .empty, .yes⟩

/-- The plain pass event `n`. -/
def nC3 : ReferencingEvent :=
  ⟨"n", .pass, none, .null, none, .empty, .yes⟩

/-- Catalog for the C3 counterexample. -/
def catC3 : Events := ⟨[rC3, nC3]⟩

/-- C3 counterexample: firing the pending repeat event queues the resolved
next event and then the repeat event itself **unchanged** — not, as the
claim states, with its time result reset: re-parsing its source string
gives a different time result, so the requeued event differs from the reset
one. -/
theorem c3_repeat_requeue_counterexample :
    (schedStep catC3 ⟨[("r", rC3)], [], []⟩ [] ⟨0, ⟨0⟩⟩).map (fun r => r.2) =
      some [nC3, rC3] ∧
    resetEventClaim parseC3 rC3 ≠ some rC3 := by
  constructor
  · rfl
  · intro h
    have h3 := congrArg ReferencingEvent.eventType (Option.some.inj h)
    simp [rC3] at h3

/-- C3 (amended): when the timer scheduler fires a `Repeat` event it
enqueues, after the resolved next event, the repeat event itself unchanged
(its time result is *not* reset there); the reset happens when the
dispatcher consumes a `Time` or `Repeat` event — it resets the time result,
hands the event to the timer scheduler's input and enqueues no `next`. -/
theorem c3_repeat_requeued_unreset (events : Events) (env : DispatchEnv) :
    (∀ (acc : SchedState × List ReferencingEvent) (fire : String × ReferencingEvent)
        (inst : Nat) (res : SchedState × List ReferencingEvent)
        (cur : ReferencingEvent) (t : TimeEvent),
      alistLookup acc.1.pending fire.1 = some cur →
      cur.eventType = .repeatEv t →
      fireStep acc fire inst = some res →
      res.2 = acc.2 ++ [fire.2.merge cur.data, cur]) ∧
    (∀ (state : List (String × String)) (received : ReferencingEvent) (t t' : TimeEvent),
      received.eventType = .time t →
      nextEventName env ⟨received.data, received.metadata, updateState state received⟩
        received ≠ some received.name →
      t.reset env.parse = some t' →
      dispatchStep events env state received =
        some ⟨updateState state received, [],
          [{ received with eventType := .time t' }], []⟩) ∧
    (∀ (state : List (String × String)) (received : ReferencingEvent) (t t' : TimeEvent),
      received.eventType = .repeatEv t →
      nextEventName env ⟨received.data, received.metadata, updateState state received⟩
        received ≠ some received.name →
      t.reset env.parse = some t' →
      dispatchStep events env state received =
        some ⟨updateState state received, [],
          [{ received with eventType := .repeatEv t' }], []⟩) := by
  refine ⟨?_, ?_, ?_⟩
  · intro acc fire inst res cur t hlk hcur hstep
    unfold fireStep at hstep
    rw [hlk] at hstep
    have h2 := Option.some.inj hstep
    rw [← congrArg Prod.snd h2]
    rw [hcur]
    simp
  · intro state received t t' hty hne hreset
    unfold dispatchStep
    rw [if_neg hne, hty]
    show (t.reset env.parse).map (fun t' => DispatchResult.mk
      (updateState state received) [] [{ received with eventType := .time t' }] []) = _
    rw [hreset]
    rfl
  · intro state received t t' hty hne hreset
    unfold dispatchStep
    rw [if_neg hne, hty]
    show (t.reset env.parse).map (fun t' => DispatchResult.mk
      (updateState state received) [] [{ received with eventType := .repeatEv t' }] []) = _
    rw [hreset]
    rfl

/-- Witness for C3 (amended): the concrete repeat fire and the concrete
dispatcher consumption of the repeat event. -/
theorem c3_repeat_requeued_unreset_witness :
    (alistLookup (SchedState.mk [("r", rC3)] [] []).pending "r" = some rC3 ∧
      rC3.eventType = .repeatEv ⟨none, some (.time 0 "tick"), none⟩ ∧
      fireStep (⟨[("r", rC3)], [], []⟩, []) ("r", nC3) 0 =
        some (⟨[], [("r", 0)], []⟩, [nC3.merge rC3.data, rC3]) ∧
      ([] : List ReferencingEvent) ++ [nC3.merge rC3.data, rC3] =
        [] ++ [nC3.merge rC3.data, rC3]) ∧
    (rC3.eventType = .repeatEv ⟨none, some (.time 0 "tick"), none⟩ ∧
      nextEventName { envTrivial with parse := parseC3 }
        ⟨rC3.data, rC3.metadata, updateState [] rC3⟩ rC3 ≠ some rC3.name ∧
      TimeEvent.reset parseC3 ⟨none, some (.time 0 "tick"), none⟩ =
        some ⟨none, some (.time 500 "tick"), none⟩ ∧
      dispatchStep catC3 { envTrivial with parse := parseC3 } [] rC3 =
        some ⟨updateState [] rC3, [],
          [{ rC3 with eventType :=
              .repeatEv ⟨none, some (.time 500 "tick"), none⟩ }], []⟩) :=
  have hfire := (c3_repeat_requeued_unreset catC3
    { envTrivial with parse := parseC3 }).1
    (⟨[("r", rC3)], [], []⟩, []) ("r", nC3) 0
    (⟨[], [("r", 0)], []⟩, [nC3.merge rC3.data, rC3]) rC3
    ⟨none, some (.time 0 "tick"), none⟩ rfl rfl rfl
  have hdisp := (c3_repeat_requeued_unreset catC3
    { envTrivial with parse := parseC3 }).2.2 [] rC3
    ⟨none, some (.time 0 "tick"), none⟩ ⟨none, some (.time 500 "tick"), none⟩
    rfl (by decide) rfl
  ⟨⟨rfl, rfl, rfl, hfire⟩, ⟨rfl, by decide, rfl, hdisp⟩⟩
